import Mathlib

/- Verification development for the Jiang-Tadmor central scheme solver
   (central2d.h) and the shallow-water physics module (shallow2d.h).

   The embedding models the C++ single-precision arrays as total functions
   `Int -> Rat` over flat indices (exact rational arithmetic standing in for
   `float`), and models each C++ loop as a left fold over the list of loop
   indices in source order, performing one functional update per array store.
   C++ `int` arithmetic is `Int` (no overflow at the sizes involved); the C++
   truncating `%` on `int` is `Int.tmod`. -/

/-- Pointwise store into a flat array modelled as a total function
    (one C++ array assignment `a[i] = x`). -/
def upd (a : ℤ → ℚ) (i : ℤ) (x : ℚ) : ℤ → ℚ :=
  fun p => if p = i then x else a p

/-- The integer interval [lo, hi) as a list in increasing order: the index
    sequence of a C++ loop `for (int i = lo; i < hi; ++i)`. -/
def irange (lo hi : ℤ) : List ℤ :=
  (List.range (hi - lo).toNat).map fun n : ℕ => lo + (n : ℤ)

/-- Concatenation of per-element lists, used to flatten nested loops into a
    single iteration list in source order. -/
def lflat (f : α → List β) : List α → List β
  | [] => []
  | a :: l => f a ++ lflat f l

theorem mem_irange {lo hi x : ℤ} : x ∈ irange lo hi ↔ lo ≤ x ∧ x < hi := by
  unfold irange
  rw [List.mem_map]
  constructor
  · rintro ⟨n, hn, rfl⟩
    rw [List.mem_range] at hn
    omega
  · intro h
    refine ⟨(x - lo).toNat, ?_, ?_⟩
    · rw [List.mem_range]
      omega
    · omega

theorem mem_lflat {f : α → List β} {l : List α} {b : β} :
    b ∈ lflat f l ↔ ∃ a ∈ l, b ∈ f a := by
  induction l with
  | nil => simp [lflat]
  | cons x xs ih => simp [lflat, List.mem_append, ih]

theorem upd_self (a : ℤ → ℚ) (i : ℤ) (x : ℚ) : upd a i x i = x := by
  simp [upd]

theorem upd_other (a : ℤ → ℚ) (i : ℤ) (x : ℚ) {p : ℤ} (h : p ≠ i) :
    upd a i x p = a p := by
  simp [upd, h]

/-- A loop storing a precomputed value `val e` at address `t e` leaves every
    address it never targets unchanged. -/
theorem foldl_upd_not {t : ι → ℤ} {val : ι → ℚ} {l : List ι} {p : ℤ}
    (h : ∀ e ∈ l, t e ≠ p) :
    ∀ a : ℤ → ℚ, (l.foldl (fun u i => upd u (t i) (val i)) a) p = a p := by
  induction l with
  | nil => intro a; rfl
  | cons x xs ih =>
    intro a
    simp only [List.foldl_cons]
    rw [ih (fun e he => h e (List.mem_cons_of_mem _ he))]
    exact upd_other a (t x) (val x) (fun hp => h x (List.mem_cons_self _ _) hp.symm)

/-- A loop storing a precomputed value `val e` at address `t e` (the value not
    reading the written array): the final content at a targeted address is the
    stored value, provided aliased targets agree on the stored value. -/
theorem foldl_upd_mem {t : ι → ℤ} {val : ι → ℚ} {l : List ι}
    (hc : ∀ e1 ∈ l, ∀ e2 ∈ l, t e1 = t e2 → val e1 = val e2) :
    ∀ a : ℤ → ℚ, ∀ e ∈ l, (l.foldl (fun u i => upd u (t i) (val i)) a) (t e) = val e := by
  induction l with
  | nil => intro a e he; cases he
  | cons x xs ih =>
    intro a e he
    simp only [List.foldl_cons]
    by_cases hex : ∃ e2 ∈ xs, t e2 = t e
    · rcases hex with ⟨e2, he2, ht2⟩
      rw [← ht2,
        ih (fun a1 h1 a2 h2 ht => hc a1 (List.mem_cons_of_mem _ h1) a2 (List.mem_cons_of_mem _ h2) ht)
          (upd a (t x) (val x)) e2 he2]
      exact hc e2 (List.mem_cons_of_mem _ he2) e he ht2
    · push_neg at hex
      have hxs : e ∉ xs := fun hmem => (hex e hmem) rfl
      have hxe : e = x := by
        rcases List.mem_cons.mp he with h | h
        · exact h
        · exact absurd h hxs
      subst hxe
      rw [foldl_upd_not (fun e2 h2 => hex e2 h2)]
      exact upd_self a (t e) (val e)

/-- A loop copying the current array content at address `s e` to address `t e`
    (like `u(...) = uwrap(...)`) leaves untargeted addresses unchanged. -/
theorem foldl_copy_not {t s : ι → ℤ} {l : List ι} {p : ℤ}
    (h : ∀ e ∈ l, t e ≠ p) :
    ∀ a : ℤ → ℚ, (l.foldl (fun u i => upd u (t i) (u (s i))) a) p = a p := by
  induction l with
  | nil => intro a; rfl
  | cons x xs ih =>
    intro a
    simp only [List.foldl_cons]
    rw [ih (fun e he => h e (List.mem_cons_of_mem _ he))]
    exact upd_other _ _ _ (fun hp => h x (List.mem_cons_self _ _) hp.symm)

/-- A loop copying the current content at `s e` to `t e`: when no source
    address is ever a target (reads never see the loop's own writes) and
    aliased targets agree on the source, the final content at a targeted
    address is the initial content at its source. -/
theorem foldl_copy_mem {t s : ι → ℤ} {l : List ι}
    (hc : ∀ e1 ∈ l, ∀ e2 ∈ l, t e1 = t e2 → s e1 = s e2)
    (hrw : ∀ e1 ∈ l, ∀ e2 ∈ l, s e1 ≠ t e2) :
    ∀ a : ℤ → ℚ, ∀ e ∈ l, (l.foldl (fun u i => upd u (t i) (u (s i))) a) (t e) = a (s e) := by
  induction l with
  | nil => intro a e he; cases he
  | cons x xs ih =>
    intro a e he
    simp only [List.foldl_cons]
    by_cases hex : ∃ e2 ∈ xs, t e2 = t e
    · rcases hex with ⟨e2, he2, ht2⟩
      rw [← ht2,
        ih (fun a1 h1 a2 h2 ht => hc a1 (List.mem_cons_of_mem _ h1) a2 (List.mem_cons_of_mem _ h2) ht)
          (fun a1 h1 a2 h2 => hrw a1 (List.mem_cons_of_mem _ h1) a2 (List.mem_cons_of_mem _ h2))
          (upd a (t x) (a (s x))) e2 he2]
      rw [upd_other a (t x) (a (s x)) (hrw e2 (List.mem_cons_of_mem _ he2) x (List.mem_cons_self _ _))]
      rw [hc e2 (List.mem_cons_of_mem _ he2) e he ht2]
    · push_neg at hex
      have hxs : e ∉ xs := fun hmem => (hex e hmem) rfl
      have hxe : e = x := by
        rcases List.mem_cons.mp he with h | h
        · exact h
        · exact absurd h hxs
      subst hxe
      rw [foldl_copy_not (fun e2 h2 => hex e2 h2)]
      exact upd_self a (t e) (a (s e))

/-- Positional decomposition: if two row-major addresses with in-row offsets in
    [0, m) coincide, the row indices and the offsets coincide. -/
theorem rowDecomp {m a b c d : ℤ} (hm : 0 < m) (hb : 0 ≤ b) (hbm : b < m)
    (hd : 0 ≤ d) (hdm : d < m) (h : a * m + b = c * m + d) : a = c ∧ b = d := by
  have h1 : (a - c) * m = d - b := by linear_combination h
  have hac : a = c := by
    by_contra hne
    have habs : 1 ≤ |a - c| := Int.one_le_abs (by omega)
    have e1 : |(a - c) * m| = |d - b| := by rw [h1]
    rw [abs_mul, abs_of_pos hm] at e1
    have e2 : |d - b| < m := abs_lt.mpr (by constructor <;> omega)
    have e3 : m ≤ |a - c| * m := le_mul_of_one_le_left hm.le habs
    omega
  refine ⟨hac, ?_⟩
  rw [hac] at h
  omega

/- ## Data model

   `Solver` is the state of one `Central2D<Physics, Limiter>` instance
   (central2d.h): immutable geometry (`nx`, `ny`, `dx`, `dy`, `cfl`,
   with `nghost = 3` fixed) and the eight flat arrays
   `u_ f_ g_ ux_ uy_ fx_ gy_ v_`, each of conceptual extent
   `nfield * (nx+6) * (ny+6)` but modelled as total functions on flat
   indices.  `Phys` is the `Physics` template argument: a field count and
   the two batched collaborator calls; `flux` receives the input array as
   a function of offsets relative to the passed base pointer and returns
   the two produced flux arrays, also relative; `wave_speed` receives the
   seed accumulator pair and returns the updated pair.  The `Limiter`
   template argument is a plain function `limdiff : Q -> Q -> Q -> Q`. -/

structure Phys where
  nf : ℤ
  flux : (ℤ → ℚ) → ℤ → ℤ → ((ℤ → ℚ) × (ℤ → ℚ))
  wave_speed : ℚ × ℚ → (ℤ → ℚ) → ℤ → ℤ → ℚ × ℚ

structure Solver where
  nx : ℤ
  ny : ℤ
  dx : ℚ
  dy : ℚ
  cfl : ℚ
  u : ℤ → ℚ
  f : ℤ → ℚ
  g : ℤ → ℚ
  ux : ℤ → ℚ
  uy : ℤ → ℚ
  fx : ℤ → ℚ
  gy : ℤ → ℚ
  v : ℤ → ℚ

/-- `offset(k,ix,iy) = (k*ny_all + iy)*nx_all + ix` with
    `nx_all = nx + 2*nghost`, `ny_all = ny + 2*nghost`, `nghost = 3`. -/
def off (S : Solver) (k ix iy : ℤ) : ℤ :=
  (k * (S.ny + 6) + iy) * (S.nx + 6) + ix

/-- The field stride `nx_all * ny_all` that `Central2D` passes to the
    physics calls. -/
def strideS (S : Solver) : ℤ := (S.nx + 6) * (S.ny + 6)

theorem off_inj {S : Solver} {k1 ix1 iy1 k2 ix2 iy2 : ℤ}
    (hx1 : 0 ≤ ix1) (hx1b : ix1 < S.nx + 6) (hy1 : 0 ≤ iy1) (hy1b : iy1 < S.ny + 6)
    (hx2 : 0 ≤ ix2) (hx2b : ix2 < S.nx + 6) (hy2 : 0 ≤ iy2) (hy2b : iy2 < S.ny + 6)
    (h : off S k1 ix1 iy1 = off S k2 ix2 iy2) : k1 = k2 ∧ ix1 = ix2 ∧ iy1 = iy2 := by
  have m1 : 0 < S.nx + 6 := by omega
  have step1 := rowDecomp m1 hx1 hx1b hx2 hx2b h
  have m2 : 0 < S.ny + 6 := by omega
  have step2 := rowDecomp m2 hy1 hy1b hy2 hy2b step1.1
  exact ⟨step2.1, step1.2, step2.2⟩

/-- The `Central2D` constructor.  The C++ code initializes the members from
    the arguments (`dx = w/nx`, `dy = h/ny`) and allocates the eight
    zero-initialized arrays; it contains no validation of any argument and
    has no failure path.  The `Except` result type gives the specification's
    claimed construction-time error report a place to live; the translation
    shows it is never produced. -/
def mkSolver (w h : ℚ) (nx ny : ℤ) (cfl : ℚ) : Except Unit Solver :=
  Except.ok
    { nx := nx, ny := ny, dx := w / (nx : ℚ), dy := h / (ny : ℚ), cfl := cfl
      u := fun _ => 0, f := fun _ => 0, g := fun _ => 0
      ux := fun _ => 0, uy := fun _ => 0, fx := fun _ => 0, gy := fun _ => 0
      v := fun _ => 0 }

/- ## Periodic boundary: apply_periodic

   `ioffset` maps `(ix,iy)` to `((ix+nx-nghost) % nx + nghost,
   (iy+ny-nghost) % ny + nghost)` with the C++ truncating `%` on `int`,
   i.e. `Int.tmod`.  `apply_periodic` performs, per field `k`: a loop over
   all `iy` and `ix < nghost` storing the wrapped value into the left and
   right ghost columns, then a loop over `iy < nghost` and all `ix`
   storing the wrapped value into the bottom and top ghost rows, in
   source order (each inner body does the two stores in sequence, and the
   stores read the current array through `uwrap`). -/

/-- One axis of `ioffset`: `(c + n - nghost) % n + nghost` with C++ `%`. -/
def wrapC (n c : ℤ) : ℤ := (c + n - 3).tmod n + 3

/-- The wrapped canonical coordinate as the specification states it:
    `((c - G + N) mod N) + G` with mathematical (nonnegative) mod. -/
def canon (n c : ℤ) : ℤ := (c - 3 + n) % n + 3

structure ApItem where
  k : ℤ
  a : ℤ
  b : ℤ
  side : Bool
  ph : Bool

/-- Padded coordinates `(k, ix, iy)` of the cell an `apply_periodic`
    iteration writes: phase-one items (`ph = false`) write the left/right
    ghost columns (`b < 3` is the column offset, `a` the row), phase-two
    items write the bottom/top ghost rows. -/
def apCoord (S : Solver) (e : ApItem) : ℤ × ℤ × ℤ :=
  if e.ph then (e.k, e.b, if e.side then S.ny + 3 + e.a else e.a)
  else (e.k, if e.side then S.nx + 3 + e.b else e.b, e.a)

def apTgt (S : Solver) (e : ApItem) : ℤ :=
  off S (apCoord S e).1 (apCoord S e).2.1 (apCoord S e).2.2

def apSrc (S : Solver) (e : ApItem) : ℤ :=
  off S (apCoord S e).1 (wrapC S.nx (apCoord S e).2.1) (wrapC S.ny (apCoord S e).2.2)

/-- The iteration list of `apply_periodic` in source order: per field, first
    the left/right column loop (`iy` over all rows, `ix < nghost`, left then
    right store), then the bottom/top row loop. -/
def apItems (S : Solver) (nf : ℤ) : List ApItem :=
  lflat (fun k =>
      lflat (fun iy =>
          lflat (fun ix => [⟨k, iy, ix, false, false⟩, ⟨k, iy, ix, true, false⟩])
            (irange 0 3))
        (irange 0 (S.ny + 6))
      ++ lflat (fun iy =>
          lflat (fun ix => [⟨k, iy, ix, false, true⟩, ⟨k, iy, ix, true, true⟩])
            (irange 0 (S.nx + 6)))
        (irange 0 3))
    (irange 0 nf)

def apply_periodic (P : Phys) (S : Solver) : Solver :=
  { S with u := (apItems S P.nf).foldl (fun a e => upd a (apTgt S e) (a (apSrc S e))) S.u }

theorem wrapC_interior {n c : ℤ} (hn : n = 1 ∨ 3 ≤ n) (hc : 0 ≤ c) :
    3 ≤ wrapC n c ∧ wrapC n c < n + 3 := by
  rcases hn with rfl | h3
  · unfold wrapC
    rw [Int.tmod_one]
    omega
  · unfold wrapC
    rw [Int.tmod_eq_emod (by omega) (by omega)]
    have h1 := Int.emod_nonneg (c + n - 3) (show n ≠ 0 by omega)
    have h2 := Int.emod_lt_of_pos (c + n - 3) (show (0:ℤ) < n by omega)
    omega

/-- Where the operand of the C++ `%` is nonnegative (interior counts `1` or
    `>= 3` and a nonnegative padded coordinate), the truncating wrap agrees
    with the specification's mathematical-mod canonical map. -/
theorem wrapC_eq_canon {n c : ℤ} (hn : n = 1 ∨ 3 ≤ n) (hc : 0 ≤ c) :
    wrapC n c = canon n c := by
  rcases hn with rfl | h3
  · unfold wrapC canon
    rw [Int.tmod_one, Int.emod_one]
  · unfold wrapC canon
    rw [Int.tmod_eq_emod (by omega) (by omega),
      show c + n - 3 = c - 3 + n by ring]

theorem canon_interior {n c : ℤ} (h1 : 3 ≤ c) (h2 : c < n + 3) : canon n c = c := by
  show (c - 3 + n) % n + 3 = c
  rw [Int.add_emod_self, Int.emod_eq_of_lt (by omega) (by omega)]
  omega

theorem apItems_spec {S : Solver} {nf : ℤ} {e : ApItem} (he : e ∈ apItems S nf) :
    0 ≤ e.k ∧ e.k < nf ∧
      (e.ph = true → 0 ≤ e.a ∧ e.a < 3 ∧ 0 ≤ e.b ∧ e.b < S.nx + 6) ∧
      (e.ph = false → 0 ≤ e.a ∧ e.a < S.ny + 6 ∧ 0 ≤ e.b ∧ e.b < 3) := by
  unfold apItems at he
  rw [mem_lflat] at he
  obtain ⟨k, hk, he⟩ := he
  rw [mem_irange] at hk
  rw [List.mem_append] at he
  rcases he with he | he
  · rw [mem_lflat] at he
    obtain ⟨iy, hiy, he⟩ := he
    rw [mem_irange] at hiy
    rw [mem_lflat] at he
    obtain ⟨ix, hix, he⟩ := he
    rw [mem_irange] at hix
    simp only [List.mem_cons, List.not_mem_nil, or_false] at he
    rcases he with rfl | rfl
    · exact ⟨hk.1, hk.2, fun h => absurd h (by simp), fun _ => ⟨hiy.1, hiy.2, hix.1, hix.2⟩⟩
    · exact ⟨hk.1, hk.2, fun h => absurd h (by simp), fun _ => ⟨hiy.1, hiy.2, hix.1, hix.2⟩⟩
  · rw [mem_lflat] at he
    obtain ⟨iy, hiy, he⟩ := he
    rw [mem_irange] at hiy
    rw [mem_lflat] at he
    obtain ⟨ix, hix, he⟩ := he
    rw [mem_irange] at hix
    simp only [List.mem_cons, List.not_mem_nil, or_false] at he
    rcases he with rfl | rfl
    · exact ⟨hk.1, hk.2, fun _ => ⟨hiy.1, hiy.2, hix.1, hix.2⟩, fun h => absurd h (by simp)⟩
    · exact ⟨hk.1, hk.2, fun _ => ⟨hiy.1, hiy.2, hix.1, hix.2⟩, fun h => absurd h (by simp)⟩

theorem mem_apItems {S : Solver} {nf : ℤ} (k a b : ℤ) (side ph : Bool)
    (hk : 0 ≤ k) (hk2 : k < nf)
    (h : if ph then 0 ≤ a ∧ a < 3 ∧ 0 ≤ b ∧ b < S.nx + 6
         else 0 ≤ a ∧ a < S.ny + 6 ∧ 0 ≤ b ∧ b < 3) :
    (⟨k, a, b, side, ph⟩ : ApItem) ∈ apItems S nf := by
  unfold apItems
  rw [mem_lflat]
  refine ⟨k, mem_irange.mpr ⟨hk, hk2⟩, ?_⟩
  rw [List.mem_append]
  cases ph
  · simp only [Bool.false_eq_true, if_false] at h
    left
    rw [mem_lflat]
    refine ⟨a, mem_irange.mpr ⟨h.1, h.2.1⟩, ?_⟩
    rw [mem_lflat]
    refine ⟨b, mem_irange.mpr ⟨h.2.2.1, h.2.2.2⟩, ?_⟩
    cases side <;> simp
  · simp only [if_true] at h
    right
    rw [mem_lflat]
    refine ⟨a, mem_irange.mpr ⟨h.1, h.2.1⟩, ?_⟩
    rw [mem_lflat]
    refine ⟨b, mem_irange.mpr ⟨h.2.2.1, h.2.2.2⟩, ?_⟩
    cases side <;> simp

theorem apCoord_k {S : Solver} (e : ApItem) : (apCoord S e).1 = e.k := by
  unfold apCoord
  cases e.ph <;> simp

theorem apCoord_bounds {S : Solver} {nf : ℤ} {e : ApItem}
    (hnx : 1 ≤ S.nx) (hny : 1 ≤ S.ny) (he : e ∈ apItems S nf) :
    0 ≤ (apCoord S e).2.1 ∧ (apCoord S e).2.1 < S.nx + 6 ∧
      0 ≤ (apCoord S e).2.2 ∧ (apCoord S e).2.2 < S.ny + 6 := by
  have hs := apItems_spec he
  unfold apCoord
  cases hph : e.ph
  · have hb := hs.2.2.2 hph
    cases e.side <;> simp <;> omega
  · have hb := hs.2.2.1 hph
    cases e.side <;> simp <;> omega

/-- Every cell `apply_periodic` writes has a ghost coordinate. -/
theorem apCoord_ghost {S : Solver} {nf : ℤ} {e : ApItem} (he : e ∈ apItems S nf) :
    (apCoord S e).2.1 < 3 ∨ S.nx + 3 ≤ (apCoord S e).2.1 ∨
      (apCoord S e).2.2 < 3 ∨ S.ny + 3 ≤ (apCoord S e).2.2 := by
  have hs := apItems_spec he
  unfold apCoord
  cases hph : e.ph
  · have hb := hs.2.2.2 hph
    cases e.side <;> simp <;> omega
  · have hb := hs.2.2.1 hph
    cases e.side <;> simp <;> omega

/-- C2 (amended): after `apply_periodic()`, every padded cell with at least one
    ghost coordinate holds exactly the value of the canonical interior cell
    `((c - G + N) mod N) + G` per axis, for every field, provided each
    interior count is `1` or at least `G = 3` (so that the C++ truncating `%`
    in `ioffset` agrees with the mathematical mod and the wrapped read lands
    on an interior cell).  The claim's case `N = 2` is refuted separately. -/
theorem apply_periodic_ghost_exact (P : Phys) (S : Solver)
    (hnx : S.nx = 1 ∨ 3 ≤ S.nx) (hny : S.ny = 1 ∨ 3 ≤ S.ny)
    (k ix iy : ℤ) (hk : 0 ≤ k) (hk2 : k < P.nf)
    (hix : 0 ≤ ix) (hix2 : ix < S.nx + 6) (hiy : 0 ≤ iy) (hiy2 : iy < S.ny + 6)
    (hghost : ix < 3 ∨ S.nx + 3 ≤ ix ∨ iy < 3 ∨ S.ny + 3 ≤ iy) :
    (apply_periodic P S).u (off S k ix iy) =
      S.u (off S k (canon S.nx ix) (canon S.ny iy)) := by
  have hnx1 : 1 ≤ S.nx := by rcases hnx with h | h <;> omega
  have hny1 : 1 ≤ S.ny := by rcases hny with h | h <;> omega
  have hc : ∀ e1 ∈ apItems S P.nf, ∀ e2 ∈ apItems S P.nf,
      apTgt S e1 = apTgt S e2 → apSrc S e1 = apSrc S e2 := by
    intro e1 h1 e2 h2 ht
    have b1 := apCoord_bounds hnx1 hny1 h1
    have b2 := apCoord_bounds hnx1 hny1 h2
    unfold apTgt at ht
    have hinj := off_inj b1.1 b1.2.1 b1.2.2.1 b1.2.2.2 b2.1 b2.2.1 b2.2.2.1 b2.2.2.2 ht
    unfold apSrc
    rw [apCoord_k, apCoord_k, hinj.2.1, hinj.2.2]
    have hks : (apCoord S e1).1 = (apCoord S e2).1 := hinj.1
    rw [apCoord_k, apCoord_k] at hks
    rw [hks]
  have hrw : ∀ e1 ∈ apItems S P.nf, ∀ e2 ∈ apItems S P.nf,
      apSrc S e1 ≠ apTgt S e2 := by
    intro e1 h1 e2 h2 heq
    have b1 := apCoord_bounds hnx1 hny1 h1
    have b2 := apCoord_bounds hnx1 hny1 h2
    have wx := wrapC_interior hnx b1.1
    have wy := wrapC_interior hny b1.2.2.1
    unfold apSrc apTgt at heq
    have hinj := off_inj (by omega) (by omega) (by omega) (by omega)
      b2.1 b2.2.1 b2.2.2.1 b2.2.2.2 heq
    have hg := apCoord_ghost h2
    omega
  have hu : (apply_periodic P S).u =
      (apItems S P.nf).foldl (fun a e => upd a (apTgt S e) (a (apSrc S e))) S.u := rfl
  rw [hu]
  by_cases hx1 : ix < 3
  · have hEmem : (⟨k, iy, ix, false, false⟩ : ApItem) ∈ apItems S P.nf :=
      mem_apItems k iy ix false false hk hk2
        (by simp only [Bool.false_eq_true, if_false]; exact ⟨hiy, hiy2, hix, hx1⟩)
    have hco : apCoord S (⟨k, iy, ix, false, false⟩ : ApItem) = (k, ix, iy) := by
      simp [apCoord]
    have ht : apTgt S (⟨k, iy, ix, false, false⟩ : ApItem) = off S k ix iy := by
      unfold apTgt; rw [hco]
    have hs : apSrc S (⟨k, iy, ix, false, false⟩ : ApItem) =
        off S k (wrapC S.nx ix) (wrapC S.ny iy) := by
      unfold apSrc; rw [hco]
    have hres := foldl_copy_mem hc hrw S.u _ hEmem
    rw [ht, hs] at hres
    rw [hres, wrapC_eq_canon hnx hix, wrapC_eq_canon hny hiy]
  · by_cases hx2 : S.nx + 3 ≤ ix
    · have hEmem : (⟨k, iy, ix - (S.nx + 3), true, false⟩ : ApItem) ∈ apItems S P.nf :=
        mem_apItems k iy (ix - (S.nx + 3)) true false hk hk2
          (by simp only [Bool.false_eq_true, if_false]; exact ⟨hiy, hiy2, by omega, by omega⟩)
      have hco : apCoord S (⟨k, iy, ix - (S.nx + 3), true, false⟩ : ApItem) = (k, ix, iy) := by
        simp [apCoord]
      have ht : apTgt S (⟨k, iy, ix - (S.nx + 3), true, false⟩ : ApItem) = off S k ix iy := by
        unfold apTgt; rw [hco]
      have hs : apSrc S (⟨k, iy, ix - (S.nx + 3), true, false⟩ : ApItem) =
          off S k (wrapC S.nx ix) (wrapC S.ny iy) := by
        unfold apSrc; rw [hco]
      have hres := foldl_copy_mem hc hrw S.u _ hEmem
      rw [ht, hs] at hres
      rw [hres, wrapC_eq_canon hnx hix, wrapC_eq_canon hny hiy]
    · by_cases hy1 : iy < 3
      · have hEmem : (⟨k, iy, ix, false, true⟩ : ApItem) ∈ apItems S P.nf :=
          mem_apItems k iy ix false true hk hk2
            (by simp only [if_true]; exact ⟨hiy, hy1, hix, hix2⟩)
        have hco : apCoord S (⟨k, iy, ix, false, true⟩ : ApItem) = (k, ix, iy) := by
          simp [apCoord]
        have ht : apTgt S (⟨k, iy, ix, false, true⟩ : ApItem) = off S k ix iy := by
          unfold apTgt; rw [hco]
        have hs : apSrc S (⟨k, iy, ix, false, true⟩ : ApItem) =
            off S k (wrapC S.nx ix) (wrapC S.ny iy) := by
          unfold apSrc; rw [hco]
        have hres := foldl_copy_mem hc hrw S.u _ hEmem
        rw [ht, hs] at hres
        rw [hres, wrapC_eq_canon hnx hix, wrapC_eq_canon hny hiy]
      · have hy2 : S.ny + 3 ≤ iy := by omega
        have hEmem : (⟨k, iy - (S.ny + 3), ix, true, true⟩ : ApItem) ∈ apItems S P.nf :=
          mem_apItems k (iy - (S.ny + 3)) ix true true hk hk2
            (by simp only [if_true]; exact ⟨by omega, by omega, hix, hix2⟩)
        have hco : apCoord S (⟨k, iy - (S.ny + 3), ix, true, true⟩ : ApItem) = (k, ix, iy) := by
          simp [apCoord]
        have ht : apTgt S (⟨k, iy - (S.ny + 3), ix, true, true⟩ : ApItem) = off S k ix iy := by
          unfold apTgt; rw [hco]
        have hs : apSrc S (⟨k, iy - (S.ny + 3), ix, true, true⟩ : ApItem) =
            off S k (wrapC S.nx ix) (wrapC S.ny iy) := by
          unfold apSrc; rw [hco]
        have hres := foldl_copy_mem hc hrw S.u _ hEmem
        rw [ht, hs] at hres
        rw [hres, wrapC_eq_canon hnx hix, wrapC_eq_canon hny hiy]

/-- A minimal instantiation of the `Physics` template parameter used to
    exercise the solver template at concrete inputs: one field, zero fluxes,
    and a `wave_speed` that returns the seed accumulator unchanged (a legal
    max-reduction). -/
def physN (n : ℤ) : Phys :=
  { nf := n
    flux := fun _ _ _ => (fun _ => 0, fun _ => 0)
    wave_speed := fun c _ _ _ => c }

/-- A 2-by-1 interior grid whose state distinguishes flat cell 26
    (= `offset(0,2,3)`, a left-ghost cell) from flat cell 28
    (= `offset(0,4,3)`, the canonical interior cell for ghost column 0 under
    the specification's mod map): all other cells are 0. -/
def solver2x1 : Solver :=
  { nx := 2, ny := 1, dx := 1, dy := 1, cfl := 9/20
    u := fun p => if p = 26 then 1 else if p = 28 then 2 else 0
    f := fun _ => 0, g := fun _ => 0
    ux := fun _ => 0, uy := fun _ => 0, fx := fun _ => 0, gy := fun _ => 0
    v := fun _ => 0 }

/-- C2 counterexample: with `Nx = 2 < G`, the ghost cell `(ix,iy) = (0,3)` of
    field 0 does not receive the value of its canonical interior cell
    `((0-3+2) mod 2)+3 = 4` after `apply_periodic` — the C++ truncating `%`
    yields `(0+2-3)%2+3 = 2`, a ghost column read before it is filled. -/
theorem apply_periodic_claim_cex :
    (apply_periodic (physN 1) solver2x1).u (off solver2x1 0 0 3) ≠
      solver2x1.u (off solver2x1 0 (canon solver2x1.nx 0) (canon solver2x1.ny 3)) := by
  decide

/-- A 3-by-3 interior grid with pairwise-distinct cell values. -/
def solver3x3 : Solver :=
  { nx := 3, ny := 3, dx := 1, dy := 1, cfl := 9/20
    u := fun p => (p : ℚ)
    f := fun _ => 0, g := fun _ => 0
    ux := fun _ => 0, uy := fun _ => 0, fx := fun _ => 0, gy := fun _ => 0
    v := fun _ => 0 }

/-- C2 witness: the periodic-exactness theorem applied at a concrete corner
    ghost cell of a 3-by-3 grid. -/
theorem apply_periodic_ghost_exact_witness :
    ((solver3x3.nx = 1 ∨ 3 ≤ solver3x3.nx) ∧ (solver3x3.ny = 1 ∨ 3 ≤ solver3x3.ny) ∧
      ((0:ℤ) < 3 ∨ solver3x3.nx + 3 ≤ 0 ∨ (4:ℤ) < 3 ∨ solver3x3.ny + 3 ≤ 4)) ∧
    (apply_periodic (physN 1) solver3x3).u (off solver3x3 0 0 4) =
      solver3x3.u (off solver3x3 0 (canon solver3x3.nx 0) (canon solver3x3.ny 4)) :=
  ⟨⟨by decide, by decide, by decide⟩,
    apply_periodic_ghost_exact (physN 1) solver3x3 (by decide) (by decide) 0 0 4
      (by decide) (by decide) (by decide) (by decide) (by decide) (by decide) (by decide)⟩

/-- C7 counterexample: constructing with `nx = 0` (and zero domain width) does
    not fail — the constructor returns a solver with the arguments stored
    unchanged (no error, no clamping). -/
theorem mkSolver_claim_cex :
    (mkSolver 0 1 0 5 (9/20)).toOption.map (fun s => (s.nx, s.ny)) = some (0, 5) := rfl

/-- C7 (amended): the constructor performs no validation at all: for every
    combination of arguments — including non-positive cell counts and
    non-positive domain extents — construction succeeds and stores the
    arguments as given (`dx = w/nx`, `dy = h/ny`), with no error report and
    no clamping. -/
theorem mkSolver_no_validation (w h : ℚ) (nx ny : ℤ) (cfl : ℚ) :
    (mkSolver w h nx ny cfl).toOption.map
        (fun s => (s.nx, s.ny, s.dx, s.dy, s.cfl)) =
      some (nx, ny, w / (nx : ℚ), h / (ny : ℚ), cfl) := rfl

/- ## Shallow-water physics (shallow2d.h)

   `Shallow2D::flux` reads, for each cell `i` in the processed run of
   `ncell` cells, `h[i] = U[i]`, `hu[i] = U[field_stride + i]`,
   `hv[i] = U[2*field_stride + i]`, copies `hu` into `fh` and `hv` into
   `gh`, and computes `inv_h = 1/h[i]` with no guard:
   `fhu = hu*hu*inv_h + (g/2)*h*h`, `fhv = ghu = hu*hv*inv_h`,
   `ghv = hv*hv*inv_h + (g/2)*h*h`.  `Shallow2D::wave_speed` computes
   `sqrt(g*h[i])` and the unguarded quotients `hu[i]/h[i]`, `hv[i]/h[i]`,
   max-reducing into the seed accumulator pair.  The embeddings return
   `none` exactly when a division by zero (or, for `wave_speed`, a negative
   radicand) would occur; the square root on the positive reals is
   represented by an abstract parameter `rt` since its values are
   irrational (the claim under verification concerns only definedness). -/

/-- Gravitational constant `g = 9.8` of `Shallow2D`. -/
def grav : ℚ := 49 / 5

/-- The divisors used by `Shallow2D::flux` and `Shallow2D::wave_speed` over a
    run: the height of every processed cell, in processing order. -/
def heightRun (U : ℤ → ℚ) (ncell : ℤ) : List ℚ :=
  (irange 0 ncell).map fun i => U i

def shallowFlux (U : ℤ → ℚ) (ncell stride : ℤ) : Option ((ℤ → ℚ) × (ℤ → ℚ)) :=
  if (irange 0 ncell).all (fun i => decide (U i ≠ 0)) then
    some
      (fun a =>
        if 0 ≤ a ∧ a < ncell then U (stride + a)
        else if stride ≤ a ∧ a < stride + ncell then
          U a * U a * (1 / U (a - stride)) +
            1 / 2 * grav * (U (a - stride) * U (a - stride))
        else if 2 * stride ≤ a ∧ a < 2 * stride + ncell then
          U (a - stride) * U a * (1 / U (a - 2 * stride))
        else 0,
        fun a =>
        if 0 ≤ a ∧ a < ncell then U (2 * stride + a)
        else if stride ≤ a ∧ a < stride + ncell then
          U a * U (stride + a) * (1 / U (a - stride))
        else if 2 * stride ≤ a ∧ a < 2 * stride + ncell then
          U a * U a * (1 / U (a - 2 * stride)) +
            1 / 2 * grav * (U (a - 2 * stride) * U (a - 2 * stride))
        else 0)
  else none

def shallowWaveSpeed (rt : ℚ → ℚ) (cxy : ℚ × ℚ) (U : ℤ → ℚ) (ncell stride : ℤ) :
    Option (ℚ × ℚ) :=
  if (irange 0 ncell).all (fun i => decide (U i ≠ 0 ∧ 0 ≤ grav * U i)) then
    some ((irange 0 ncell).foldl
      (fun c i =>
        (max c.1 (|U (stride + i) / U i| + rt (grav * U i)),
          max c.2 (|U (2 * stride + i) / U i| + rt (grav * U i))))
      cxy)
  else none

/-- C10: both physics kernels divide by the height of every cell of the
    processed run with no guard; if the height is strictly positive at every
    processed cell, every divisor is nonzero and every radicand is positive,
    so both computations are defined (the `none` branches are unreachable). -/
theorem shallow_defined_of_pos (U : ℤ → ℚ) (ncell stride : ℤ)
    (rt : ℚ → ℚ) (cxy : ℚ × ℚ)
    (hpos : ∀ i, 0 ≤ i → i < ncell → 0 < U i) :
    (∀ d ∈ heightRun U ncell, d ≠ 0) ∧
      (shallowFlux U ncell stride).isSome = true ∧
      (shallowWaveSpeed rt cxy U ncell stride).isSome = true := by
  have hne : ∀ i ∈ irange 0 ncell, U i ≠ 0 := by
    intro i hi
    rw [mem_irange] at hi
    exact ne_of_gt (hpos i hi.1 hi.2)
  refine ⟨?_, ?_, ?_⟩
  · intro d hd
    rcases List.mem_map.mp hd with ⟨i, hi, rfl⟩
    exact hne i hi
  · unfold shallowFlux
    rw [if_pos]
    · rfl
    · rw [List.all_eq_true]
      intro i hi
      exact decide_eq_true (hne i hi)
  · unfold shallowWaveSpeed
    rw [if_pos]
    · rfl
    · rw [List.all_eq_true]
      intro i hi
      rw [mem_irange] at hi
      refine decide_eq_true ⟨ne_of_gt (hpos i hi.1 hi.2), ?_⟩
      have : (0:ℚ) < grav := by norm_num [grav]
      exact le_of_lt (mul_pos this (hpos i hi.1 hi.2))

/-- C10 witness: a constant positive height field over a 4-cell run. -/
theorem shallow_defined_of_pos_witness :
    (shallowFlux (fun _ => 1) 4 16).isSome = true ∧
      (shallowWaveSpeed (fun q => q) (0, 0) (fun _ => 1) 4 16).isSome = true :=
  ⟨(shallow_defined_of_pos (fun _ => 1) 4 16 (fun q => q) (0, 0)
      (fun _ _ _ => one_pos)).2.1,
    (shallow_defined_of_pos (fun _ => 1) 4 16 (fun q => q) (0, 0)
      (fun _ _ _ => one_pos)).2.2⟩

/- ## Limited derivatives (central2d.h, limited_derivs)

   The tuned source flattens the four per-cell stencil loops into ONE loop
   over flat indices: `hi = nfield*(ny_all-1)*nx_all;
   for (i = ny_all; i < hi; ++i)` storing
   `ux[i] = limdiff(u[i-1], u[i], u[i+1])`, `fx[i]` likewise from `f`,
   `uy[i] = limdiff(u[i-nx_all], u[i], u[i+nx_all])`, `gy[i]` likewise
   from `g`.  The four stores per iteration hit four distinct arrays and
   the loop reads only `u_`, `f_`, `g_` (never written here), so the four
   per-array passes below are equivalent to the interleaved source loop. -/

/-- The flat iteration domain `[ny_all, nfield*(ny_all-1)*nx_all)` of the
    `limited_derivs` loop, exactly as the source computes it. -/
def ldDom (nf nxa nya : ℤ) : List ℤ := irange nya (nf * (nya - 1) * nxa)

def limited_derivs (P : Phys) (lim : ℚ → ℚ → ℚ → ℚ) (S : Solver) : Solver :=
  { S with
    ux := (ldDom P.nf (S.nx + 6) (S.ny + 6)).foldl
      (fun a i => upd a i (lim (S.u (i - 1)) (S.u i) (S.u (i + 1)))) S.ux
    fx := (ldDom P.nf (S.nx + 6) (S.ny + 6)).foldl
      (fun a i => upd a i (lim (S.f (i - 1)) (S.f i) (S.f (i + 1)))) S.fx
    uy := (ldDom P.nf (S.nx + 6) (S.ny + 6)).foldl
      (fun a i => upd a i (lim (S.u (i - (S.nx + 6))) (S.u i) (S.u (i + (S.nx + 6))))) S.uy
    gy := (ldDom P.nf (S.nx + 6) (S.ny + 6)).foldl
      (fun a i => upd a i (lim (S.g (i - (S.nx + 6))) (S.g i) (S.g (i + (S.nx + 6))))) S.gy }

/-- The limiter that returns 0 everywhere (a legal `limdiff`). -/
def limZero : ℚ → ℚ → ℚ → ℚ := fun _ _ _ => 0

/-- The limiter that returns its first argument (exposes the `fm` read). -/
def limLeft : ℚ → ℚ → ℚ → ℚ := fun a _ _ => a

/-- 2-by-2 interior grid, three fields, with the `ux` array pre-filled with
    the sentinel 42 and all other arrays zero. -/
def solver2x2A : Solver :=
  { nx := 2, ny := 2, dx := 1, dy := 1, cfl := 9/20
    u := fun _ => 0, f := fun _ => 0, g := fun _ => 0
    ux := fun _ => 42, uy := fun _ => 0, fx := fun _ => 0, gy := fun _ => 0
    v := fun _ => 0 }

/-- 20-by-5 interior grid whose state array is zero on the entire allocated
    index range `[0, 3*26*11)` and is 1 only at the negative flat index
    `-15 = ny_all - nx_all`, i.e. outside the allocation. -/
def solver20x5A : Solver :=
  { nx := 20, ny := 5, dx := 1, dy := 1, cfl := 9/20
    u := fun p => if p = -15 then 1 else 0
    f := fun _ => 0, g := fun _ => 0
    ux := fun _ => 0, uy := fun _ => 0, fx := fun _ => 0, gy := fun _ => 0
    v := fun _ => 0 }

/-- Same grid with the state array zero everywhere. -/
def solver20x5B : Solver :=
  { nx := 20, ny := 5, dx := 1, dy := 1, cfl := 9/20
    u := fun _ => 0
    f := fun _ => 0, g := fun _ => 0
    ux := fun _ => 0, uy := fun _ => 0, fx := fun _ => 0, gy := fun _ => 0
    v := fun _ => 0 }

set_option maxRecDepth 100000 in
set_option maxHeartbeats 1000000 in
/-- C5 (code bug, both halves): (a) with three fields and a 2-by-2 grid the
    position `(k,ix,iy) = (2,1,5)` lies outside the one-cell stencil margin,
    yet its flat index `169` is at or above the loop bound
    `hi = 3*(8-1)*8 = 168`, so `ux` keeps its prior content (the sentinel)
    instead of the limiter value the claim requires; (b) with `Nx = 20 >
    Ny = 5` the very first iteration `i = ny_all = 11` reads
    `u[i - nx_all] = u[-15]`, outside the allocated range: two solvers whose
    state arrays agree on every allocated index produce different `uy`. -/
theorem limited_derivs_flat_loop_bug :
    ((limited_derivs (physN 3) limZero solver2x2A).ux (off solver2x2A 2 1 5) = 42 ∧
      limZero (solver2x2A.u (off solver2x2A 2 1 5 - 1)) (solver2x2A.u (off solver2x2A 2 1 5))
        (solver2x2A.u (off solver2x2A 2 1 5 + 1)) = 0) ∧
    ((solver20x5A.ny + 6 ∈
        ldDom 3 (solver20x5A.nx + 6) (solver20x5A.ny + 6)) ∧
      ¬((0:ℤ) ≤ solver20x5A.ny + 6 - (solver20x5A.nx + 6)) ∧
      solver20x5A.u (solver20x5A.ny + 6 - (solver20x5A.nx + 6)) = 1 ∧
      solver20x5B.u (solver20x5B.ny + 6 - (solver20x5B.nx + 6)) = 0 ∧
      (limited_derivs (physN 3) limLeft solver20x5A).uy (solver20x5A.ny + 6) = 1 ∧
      (limited_derivs (physN 3) limLeft solver20x5B).uy (solver20x5B.ny + 6) = 0) :=
  ⟨⟨by decide, by decide⟩,
    ⟨by decide, by decide, by decide, by decide, by decide, by decide⟩⟩

/- ## compute_step (central2d.h)

   One half-step: (1) predictor over every padded cell except the outermost
   ring, `v = u - dtcdx2*fx - dtcdy2*gy` with `dtcdx2 = 0.5*dt/dx`,
   `dtcdy2 = 0.5*dt/dy`; (2) per interior-extended row `iy in [1, ny_all-1)`,
   `Physics::flux(&f_[jj], &g_[jj], &v_[jj], nx_all-2, nx_all*ny_all)` with
   `jj = offset(0,1,iy)`; (3) corrector over the parity-shifted window
   `[nghost-io, n+nghost-io)` in both axes; (4) per field, a flat
   `memcpy` of `ny*nx_all` values from `v(k, nghost-io, nghost-io)` to
   `u(k, nghost, nghost)`. -/

/-- Iteration triples `(iy, ix, k)` of a cell loop with `iy` outermost and
    the field index innermost, in source order. -/
def cellItems (ylo yhi xlo xhi nf : ℤ) : List (ℤ × ℤ × ℤ) :=
  lflat (fun iy =>
      lflat (fun ix => (irange 0 nf).map fun k => (iy, ix, k)) (irange xlo xhi))
    (irange ylo yhi)

theorem mem_cellItems {ylo yhi xlo xhi nf : ℤ} {e : ℤ × ℤ × ℤ} :
    e ∈ cellItems ylo yhi xlo xhi nf ↔
      ylo ≤ e.1 ∧ e.1 < yhi ∧ xlo ≤ e.2.1 ∧ e.2.1 < xhi ∧ 0 ≤ e.2.2 ∧ e.2.2 < nf := by
  unfold cellItems
  rw [mem_lflat]
  constructor
  · rintro ⟨iy, hiy, he⟩
    rw [mem_lflat] at he
    obtain ⟨ix, hix, he⟩ := he
    rcases List.mem_map.mp he with ⟨k, hk, rfl⟩
    rw [mem_irange] at hiy hix hk
    exact ⟨hiy.1, hiy.2, hix.1, hix.2, hk.1, hk.2⟩
  · intro h
    refine ⟨e.1, mem_irange.mpr ⟨h.1, h.2.1⟩, ?_⟩
    rw [mem_lflat]
    refine ⟨e.2.1, mem_irange.mpr ⟨h.2.2.1, h.2.2.2.1⟩, ?_⟩
    exact List.mem_map.mpr ⟨e.2.2, mem_irange.mpr ⟨h.2.2.2.2.1, h.2.2.2.2.2⟩, rfl⟩

/-- The cell a loop triple `(iy, ix, k)` addresses. -/
def cellTgt (S : Solver) (e : ℤ × ℤ × ℤ) : ℤ := off S e.2.2 e.2.1 e.1

/-- The predictor store:
    `v(k,ix,iy) = u(k,ix,iy) - dtcdx2*fx(k,ix,iy) - dtcdy2*gy(k,ix,iy)`. -/
def predVal (S : Solver) (dt : ℚ) (e : ℤ × ℤ × ℤ) : ℚ :=
  S.u (cellTgt S e) - 1/2 * dt / S.dx * S.fx (cellTgt S e) -
    1/2 * dt / S.dy * S.gy (cellTgt S e)

/-- Predictor phase, writing into the scratch array `v_` over
    `iy in [1, ny_all-1)`, `ix in [1, nx_all-1)`, all fields. -/
def predictor (P : Phys) (S : Solver) (dt : ℚ) : ℤ → ℚ :=
  (cellItems 1 (S.ny + 5) 1 (S.nx + 5) P.nf).foldl
    (fun a e => upd a (cellTgt S e) (predVal S dt e)) S.v

/-- Whether flat address `a` lies in the write range of a batched physics
    call based at `jj` over `ncell` cells with field stride `stride`:
    `a in [jj + k*stride, jj + k*stride + ncell)` for some field `k`. -/
def inRun (nf stride jj ncell a : ℤ) : Bool :=
  (irange 0 nf).any fun k => decide (jj + k * stride ≤ a ∧ a < jj + k * stride + ncell)

/-- Overlay of a batched physics call's output on an array: inside the write
    range the produced value (indexed relative to the base pointer `jj`),
    elsewhere the previous content. -/
def overlayRun (nf stride jj ncell : ℤ) (val : ℤ → ℚ) (arr : ℤ → ℚ) : ℤ → ℚ :=
  fun a => if inRun nf stride jj ncell a then val (a - jj) else arr a

theorem inRun_true {nf stride jj ncell a k : ℤ} (hk : 0 ≤ k) (hk2 : k < nf)
    (h1 : jj + k * stride ≤ a) (h2 : a < jj + k * stride + ncell) :
    inRun nf stride jj ncell a = true := by
  unfold inRun
  rw [List.any_eq_true]
  exact ⟨k, mem_irange.mpr ⟨hk, hk2⟩, decide_eq_true ⟨h1, h2⟩⟩

theorem inRun_false {nf stride jj ncell a : ℤ}
    (h : ∀ k, 0 ≤ k → k < nf → ¬(jj + k * stride ≤ a ∧ a < jj + k * stride + ncell)) :
    inRun nf stride jj ncell a = false := by
  unfold inRun
  rw [← Bool.not_eq_true, List.any_eq_true]
  rintro ⟨k, hk, hdec⟩
  rw [mem_irange] at hk
  exact h k hk.1 hk.2 (of_decide_eq_true hdec)

theorem overlayRun_in {nf stride jj ncell : ℤ} {val arr : ℤ → ℚ} {a : ℤ}
    (h : inRun nf stride jj ncell a = true) :
    overlayRun nf stride jj ncell val arr a = val (a - jj) := by
  unfold overlayRun
  rw [h]
  rfl

theorem overlayRun_out {nf stride jj ncell : ℤ} {val arr : ℤ → ℚ} {a : ℤ}
    (h : inRun nf stride jj ncell a = false) :
    overlayRun nf stride jj ncell val arr a = arr a := by
  unfold overlayRun
  rw [h]
  rfl

/-- One row of the half-step flux recomputation: the physics call on the
    predicted row based at `jj = offset(0,1,iy)` over `nx_all - 2` cells. -/
def hfBody (P : Phys) (S : Solver) (v1 : ℤ → ℚ) (fg : (ℤ → ℚ) × (ℤ → ℚ)) (iy : ℤ) :
    (ℤ → ℚ) × (ℤ → ℚ) :=
  (overlayRun P.nf (strideS S) (off S 0 1 iy) (S.nx + 4)
      (P.flux (fun r => v1 (off S 0 1 iy + r)) (S.nx + 4) (strideS S)).1 fg.1,
    overlayRun P.nf (strideS S) (off S 0 1 iy) (S.nx + 4)
      (P.flux (fun r => v1 (off S 0 1 iy + r)) (S.nx + 4) (strideS S)).2 fg.2)

/-- Half-step flux recomputation over rows `iy in [1, ny_all-1)`, updating
    `f_` and `g_` in place from the predicted values. -/
def halfFlux (P : Phys) (S : Solver) (v1 : ℤ → ℚ) : (ℤ → ℚ) × (ℤ → ℚ) :=
  (irange 1 (S.ny + 5)).foldl (hfBody P S v1) (S.f, S.g)

/-- The corrector store (reading the pre-step state `u_`, the limited
    derivatives `ux_`, `uy_`, and the recomputed fluxes). -/
def corrVal (S : Solver) (dt : ℚ) (f2 g2 : ℤ → ℚ) (e : ℤ × ℤ × ℤ) : ℚ :=
  1/4 * (S.u (off S e.2.2 e.2.1 e.1) + S.u (off S e.2.2 (e.2.1 + 1) e.1) +
      S.u (off S e.2.2 e.2.1 (e.1 + 1)) + S.u (off S e.2.2 (e.2.1 + 1) (e.1 + 1))) -
  1/16 * (S.ux (off S e.2.2 (e.2.1 + 1) e.1) - S.ux (off S e.2.2 e.2.1 e.1) +
      S.ux (off S e.2.2 (e.2.1 + 1) (e.1 + 1)) - S.ux (off S e.2.2 e.2.1 (e.1 + 1)) +
      S.uy (off S e.2.2 e.2.1 (e.1 + 1)) - S.uy (off S e.2.2 e.2.1 e.1) +
      S.uy (off S e.2.2 (e.2.1 + 1) (e.1 + 1)) - S.uy (off S e.2.2 (e.2.1 + 1) e.1)) -
  1/2 * dt / S.dx * (f2 (off S e.2.2 (e.2.1 + 1) e.1) - f2 (off S e.2.2 e.2.1 e.1) +
      f2 (off S e.2.2 (e.2.1 + 1) (e.1 + 1)) - f2 (off S e.2.2 e.2.1 (e.1 + 1))) -
  1/2 * dt / S.dy * (g2 (off S e.2.2 e.2.1 (e.1 + 1)) - g2 (off S e.2.2 e.2.1 e.1) +
      g2 (off S e.2.2 (e.2.1 + 1) (e.1 + 1)) - g2 (off S e.2.2 (e.2.1 + 1) e.1))

/-- Corrector phase over the parity-shifted window
    `[nghost-io, n+nghost-io)` in both axes, overwriting the scratch. -/
def corrector (P : Phys) (S : Solver) (io : ℤ) (dt : ℚ)
    (v1 f2 g2 : ℤ → ℚ) : ℤ → ℚ :=
  (cellItems (3 - io) (S.ny + 3 - io) (3 - io) (S.nx + 3 - io) P.nf).foldl
    (fun a e => upd a (cellTgt S e) (corrVal S dt f2 g2 e)) v1

/-- A flat `memcpy` of `len` values from `src` (in `v`) to `dst` (in `u`). -/
def blockCopy (dst src len : ℤ) (v u : ℤ → ℚ) : ℤ → ℚ :=
  fun a => if dst ≤ a ∧ a < dst + len then v (a - dst + src) else u a

/-- Copy-back phase: per field `k`, `memcpy(&u(k,3,3), &v(k,3-io,3-io),
    ny*nx_all*sizeof(float))`. -/
def copyBack (P : Phys) (S : Solver) (io : ℤ) (v2 : ℤ → ℚ) : ℤ → ℚ :=
  (irange 0 P.nf).foldl
    (fun a k => blockCopy (off S k 3 3) (off S k (3 - io) (3 - io))
      (S.ny * (S.nx + 6)) v2 a)
    S.u

def compute_step (P : Phys) (S : Solver) (io : ℤ) (dt : ℚ) : Solver :=
  let v1 := predictor P S dt
  let fg := halfFlux P S v1
  let v2 := corrector P S io dt v1 fg.1 fg.2
  { S with f := fg.1, g := fg.2, v := v2, u := copyBack P S io v2 }

theorem compute_step_f (P : Phys) (S : Solver) (io : ℤ) (dt : ℚ) :
    (compute_step P S io dt).f = (halfFlux P S (predictor P S dt)).1 := rfl

theorem compute_step_g (P : Phys) (S : Solver) (io : ℤ) (dt : ℚ) :
    (compute_step P S io dt).g = (halfFlux P S (predictor P S dt)).2 := rfl

theorem compute_step_v (P : Phys) (S : Solver) (io : ℤ) (dt : ℚ) :
    (compute_step P S io dt).v =
      corrector P S io dt (predictor P S dt)
        (halfFlux P S (predictor P S dt)).1 (halfFlux P S (predictor P S dt)).2 := rfl

theorem compute_step_u (P : Phys) (S : Solver) (io : ℤ) (dt : ℚ) :
    (compute_step P S io dt).u =
      copyBack P S io
        (corrector P S io dt (predictor P S dt)
          (halfFlux P S (predictor P S dt)).1 (halfFlux P S (predictor P S dt)).2) := rfl

/-- If `0 <= D*m + i < c*m` with `0 <= i < m`, then `0 <= D < c`
    (uniqueness of Euclidean decomposition, inequality form). -/
theorem divBound {m D i c : ℤ} (hm : 0 < m) (hi : 0 ≤ i) (him : i < m)
    (h1 : 0 ≤ D * m + i) (h2 : D * m + i < c * m) : 0 ≤ D ∧ D < c := by
  constructor
  · by_contra hneg
    push_neg at hneg
    have hD1 : D ≤ -1 := by omega
    have : D * m ≤ -1 * m := mul_le_mul_of_nonneg_right hD1 hm.le
    omega
  · by_contra hge
    push_neg at hge
    have : c * m ≤ D * m := mul_le_mul_of_nonneg_right hge hm.le
    omega

/-- A multiple of `m` strictly between `-m` and `m` is zero. -/
theorem mulEqSmall {m E d : ℤ} (hm : 0 < m) (h : E * m = d)
    (hd1 : -m < d) (hd2 : d < m) : E = 0 ∧ d = 0 := by
  have hE : E = 0 := by
    by_contra hne
    have habs : 1 ≤ |E| := Int.one_le_abs hne
    have h3 : m ≤ |E| * m := le_mul_of_one_le_left hm.le habs
    have h4 : |E * m| = |E| * m := by rw [abs_mul, abs_of_pos hm]
    have h5 : |E * m| < m := by
      rw [h]
      exact abs_lt.mpr ⟨hd1, hd2⟩
    omega
  refine ⟨hE, ?_⟩
  rw [hE] at h
  omega

theorem hfFold_not (P : Phys) (S : Solver) (v1 : ℤ → ℚ) (a : ℤ) :
    ∀ (rows : List ℤ) (fg0 : (ℤ → ℚ) × (ℤ → ℚ)),
      (∀ r ∈ rows, inRun P.nf (strideS S) (off S 0 1 r) (S.nx + 4) a = false) →
      (rows.foldl (hfBody P S v1) fg0).1 a = fg0.1 a ∧
        (rows.foldl (hfBody P S v1) fg0).2 a = fg0.2 a := by
  intro rows
  induction rows with
  | nil => intro fg0 h; exact ⟨rfl, rfl⟩
  | cons x xs ih =>
    intro fg0 h
    simp only [List.foldl_cons]
    have hmain := ih (hfBody P S v1 fg0 x) (fun r hr => h r (List.mem_cons_of_mem _ hr))
    have hx := h x (List.mem_cons_self _ _)
    refine ⟨?_, ?_⟩
    · rw [hmain.1]
      exact overlayRun_out hx
    · rw [hmain.2]
      exact overlayRun_out hx

theorem hfFold_mem (P : Phys) (S : Solver) (v1 : ℤ → ℚ) (a iy : ℤ) :
    ∀ (rows : List ℤ) (fg0 : (ℤ → ℚ) × (ℤ → ℚ)),
      iy ∈ rows →
      inRun P.nf (strideS S) (off S 0 1 iy) (S.nx + 4) a = true →
      (∀ r ∈ rows, r ≠ iy → inRun P.nf (strideS S) (off S 0 1 r) (S.nx + 4) a = false) →
      (rows.foldl (hfBody P S v1) fg0).1 a =
        (P.flux (fun r => v1 (off S 0 1 iy + r)) (S.nx + 4) (strideS S)).1
          (a - off S 0 1 iy) ∧
      (rows.foldl (hfBody P S v1) fg0).2 a =
        (P.flux (fun r => v1 (off S 0 1 iy + r)) (S.nx + 4) (strideS S)).2
          (a - off S 0 1 iy) := by
  intro rows
  induction rows with
  | nil => intro fg0 hmem; cases hmem
  | cons x xs ih =>
    intro fg0 hmem hin hout
    simp only [List.foldl_cons]
    by_cases hxs : iy ∈ xs
    · exact ih (hfBody P S v1 fg0 x) hxs hin
        (fun r hr hne => hout r (List.mem_cons_of_mem _ hr) hne)
    · have hx : x = iy := by
        rcases List.mem_cons.mp hmem with h | h
        · exact h.symm
        · exact absurd h hxs
      subst hx
      have hrest := hfFold_not P S v1 a xs (hfBody P S v1 fg0 x)
        (fun r hr => hout r (List.mem_cons_of_mem _ hr) (fun he => hxs (he ▸ hr)))
      refine ⟨?_, ?_⟩
      · rw [hrest.1]
        exact overlayRun_in hin
      · rw [hrest.2]
        exact overlayRun_in hin

/-- C1 helper: the half-step flux recomputation stores, at every cell of
    every processed row, exactly the value the physics produced for that row
    from the predicted values, relative to the row base `offset(0,1,iy)`. -/
theorem halfFlux_at (P : Phys) (S : Solver) (v1 : ℤ → ℚ)
    (k i iy : ℤ) (hk : 0 ≤ k) (hk2 : k < P.nf) (hi : 0 ≤ i) (hi2 : i < S.nx + 4)
    (hiy : 1 ≤ iy) (hiy2 : iy < S.ny + 5) :
    (halfFlux P S v1).1 (off S k (1 + i) iy) =
      (P.flux (fun r => v1 (off S 0 1 iy + r)) (S.nx + 4) (strideS S)).1
        (k * strideS S + i) ∧
    (halfFlux P S v1).2 (off S k (1 + i) iy) =
      (P.flux (fun r => v1 (off S 0 1 iy + r)) (S.nx + 4) (strideS S)).2
        (k * strideS S + i) := by
  have key : off S k (1 + i) iy = off S 0 1 iy + k * strideS S + i := by
    unfold off strideS
    ring
  have hin : inRun P.nf (strideS S) (off S 0 1 iy) (S.nx + 4) (off S k (1 + i) iy) = true :=
    inRun_true hk hk2 (by linarith [key]) (by linarith [key])
  have hout : ∀ r ∈ irange 1 (S.ny + 5), r ≠ iy →
      inRun P.nf (strideS S) (off S 0 1 r) (S.nx + 4) (off S k (1 + i) iy) = false := by
    intro r hr hne
    rw [mem_irange] at hr
    apply inRun_false
    intro k2 hk2a hk2b hcon
    have key2 : off S k (1 + i) iy - off S 0 1 r - k2 * strideS S =
        ((k - k2) * (S.ny + 6) + (iy - r)) * (S.nx + 6) + i := by
      unfold off strideS
      ring
    have hD := divBound (show (0:ℤ) < S.nx + 6 by nlinarith [hi, hi2]) hi
      (by nlinarith [hi, hi2])
      (by linarith [key2, hcon.1])
      (show ((k - k2) * (S.ny + 6) + (iy - r)) * (S.nx + 6) + i < 1 * (S.nx + 6) by
        linarith [key2, hcon.2])
    have hD0 : (k - k2) * (S.ny + 6) + (iy - r) = 0 :=
      le_antisymm (Int.lt_add_one_iff.mp (by linarith [hD.2])) hD.1
    have hEd : (k - k2) * (S.ny + 6) = r - iy := by linarith [hD0]
    have hsm := mulEqSmall (show (0:ℤ) < S.ny + 6 by omega) hEd (by omega) (by omega)
    exact hne (by omega)
  have hres := hfFold_mem P S v1 (off S k (1 + i) iy) iy (irange 1 (S.ny + 5)) (S.f, S.g)
    (mem_irange.mpr ⟨hiy, hiy2⟩) hin hout
  have hd : off S k (1 + i) iy - off S 0 1 iy = k * strideS S + i := by
    rw [key]
    ring
  unfold halfFlux
  rw [hres.1, hres.2, hd]
  exact ⟨rfl, rfl⟩

theorem cbFold_not (S : Solver) (io : ℤ) (v2 : ℤ → ℚ) (a : ℤ) :
    ∀ (ks : List ℤ) (a0 : ℤ → ℚ),
      (∀ k ∈ ks, ¬(off S k 3 3 ≤ a ∧ a < off S k 3 3 + S.ny * (S.nx + 6))) →
      (ks.foldl (fun w k => blockCopy (off S k 3 3) (off S k (3 - io) (3 - io))
        (S.ny * (S.nx + 6)) v2 w) a0) a = a0 a := by
  intro ks
  induction ks with
  | nil => intro a0 h; rfl
  | cons x xs ih =>
    intro a0 h
    simp only [List.foldl_cons]
    rw [ih _ (fun k hk => h k (List.mem_cons_of_mem _ hk))]
    unfold blockCopy
    rw [if_neg (h x (List.mem_cons_self _ _))]

theorem cbFold_mem (S : Solver) (io : ℤ) (v2 : ℤ → ℚ) (a k : ℤ) :
    ∀ (ks : List ℤ) (a0 : ℤ → ℚ),
      k ∈ ks →
      (off S k 3 3 ≤ a ∧ a < off S k 3 3 + S.ny * (S.nx + 6)) →
      (∀ k2 ∈ ks, k2 ≠ k → ¬(off S k2 3 3 ≤ a ∧ a < off S k2 3 3 + S.ny * (S.nx + 6))) →
      (ks.foldl (fun w k3 => blockCopy (off S k3 3 3) (off S k3 (3 - io) (3 - io))
        (S.ny * (S.nx + 6)) v2 w) a0) a = v2 (a - off S k 3 3 + off S k (3 - io) (3 - io)) := by
  intro ks
  induction ks with
  | nil => intro a0 hmem; cases hmem
  | cons x xs ih =>
    intro a0 hmem hin hout
    simp only [List.foldl_cons]
    by_cases hxs : k ∈ xs
    · exact ih _ hxs hin (fun k2 hk2 hne => hout k2 (List.mem_cons_of_mem _ hk2) hne)
    · have hx : x = k := by
        rcases List.mem_cons.mp hmem with h | h
        · exact h.symm
        · exact absurd h hxs
      subst hx
      rw [cbFold_not S io v2 a xs _
        (fun k2 hk2 => hout k2 (List.mem_cons_of_mem _ hk2) (fun he => hxs (he ▸ hk2)))]
      unfold blockCopy
      rw [if_pos hin]

/-- C6: the copy-back of `compute_step` moves the scratch block based at
    `(G - io, G - io)` onto the state block based at `(G, G)`: for every
    field `k` and every flat offset `(i, j)` of the copied run
    (`0 <= i < nx_all`, `0 <= j < ny`), the state at padded coordinates
    `(G + i, G + j)` receives exactly the scratch value at padded
    coordinates `(G - io + i, G - io + j)`. -/
theorem compute_step_copy_back (P : Phys) (S : Solver) (io : ℤ) (dt : ℚ)
    (k i j : ℤ) (hk : 0 ≤ k) (hk2 : k < P.nf)
    (hi : 0 ≤ i) (hi2 : i < S.nx + 6) (hj : 0 ≤ j) (hj2 : j < S.ny) :
    (compute_step P S io dt).u (off S k (3 + i) (3 + j)) =
      (compute_step P S io dt).v (off S k (3 - io + i) (3 - io + j)) := by
  rw [compute_step_u, compute_step_v]
  unfold copyBack
  have hm : (0:ℤ) < S.nx + 6 := by omega
  have key : off S k (3 + i) (3 + j) - off S k 3 3 = j * (S.nx + 6) + i := by
    unfold off
    ring
  have hblo : 0 ≤ j * (S.nx + 6) + i := by
    have := mul_nonneg hj hm.le
    linarith
  have hbhi : j * (S.nx + 6) + i < S.ny * (S.nx + 6) := by
    have e1 : j * (S.nx + 6) ≤ (S.ny - 1) * (S.nx + 6) :=
      mul_le_mul_of_nonneg_right (by omega) hm.le
    have e2 : (S.ny - 1) * (S.nx + 6) + (S.nx + 6) = S.ny * (S.nx + 6) := by ring
    linarith
  have hin : off S k 3 3 ≤ off S k (3 + i) (3 + j) ∧
      off S k (3 + i) (3 + j) < off S k 3 3 + S.ny * (S.nx + 6) := by
    constructor
    · linarith [key, hblo]
    · linarith [key, hbhi]
  have hout : ∀ k2 ∈ irange 0 P.nf, k2 ≠ k →
      ¬(off S k2 3 3 ≤ off S k (3 + i) (3 + j) ∧
        off S k (3 + i) (3 + j) < off S k2 3 3 + S.ny * (S.nx + 6)) := by
    intro k2 hk2m hne hcon
    have key2 : off S k (3 + i) (3 + j) - off S k2 3 3 =
        ((k - k2) * (S.ny + 6) + j) * (S.nx + 6) + i := by
      unfold off
      ring
    have hD := divBound hm hi hi2
      (show 0 ≤ ((k - k2) * (S.ny + 6) + j) * (S.nx + 6) + i by linarith [key2, hcon.1])
      (show ((k - k2) * (S.ny + 6) + j) * (S.nx + 6) + i < S.ny * (S.nx + 6) by
        linarith [key2, hcon.2])
    have hEd : (k - k2) * (S.ny + 6) = ((k - k2) * (S.ny + 6) + j) - j := by ring
    have hsm := mulEqSmall (show (0:ℤ) < S.ny + 6 by omega) hEd
      (by linarith [hD.1, hD.2]) (by linarith [hD.1, hD.2])
    exact hne (by omega)
  have hres := cbFold_mem S io
    (corrector P S io dt (predictor P S dt)
      (halfFlux P S (predictor P S dt)).1 (halfFlux P S (predictor P S dt)).2)
    (off S k (3 + i) (3 + j)) k (irange 0 P.nf) S.u
    (mem_irange.mpr ⟨hk, hk2⟩) hin hout
  rw [hres]
  have hd : off S k (3 + i) (3 + j) - off S k 3 3 + off S k (3 - io) (3 - io) =
      off S k (3 - io + i) (3 - io + j) := by
    unfold off
    ring
  rw [hd]

/-- C6 witness: the copy-back relation at a concrete field, offset, and
    parity on a 1-by-1 grid. -/
theorem compute_step_copy_back_witness :
    ((0:ℤ) ≤ 0 ∧ (0:ℤ) < (physN 1).nf ∧ (2:ℤ) < solver2x1.nx + 6 ∧ (0:ℤ) < solver2x1.ny) ∧
    (compute_step (physN 1) solver2x1 1 1).u (off solver2x1 0 (3 + 2) (3 + 0)) =
      (compute_step (physN 1) solver2x1 1 1).v (off solver2x1 0 (3 - 1 + 2) (3 - 1 + 0)) :=
  ⟨⟨by decide, by decide, by decide, by decide⟩,
    compute_step_copy_back (physN 1) solver2x1 1 1 0 2 0
      (by decide) (by decide) (by decide) (by decide) (by decide) (by decide)⟩

/-- C1: one half-step with parity `io` and step `dt`.
    (1) Predictor: for every padded cell except the outermost one-cell ring,
    the scratch receives `u - (0.5*dt/dx)*fx - (0.5*dt/dy)*gy`.
    (2) The flux is then re-evaluated from the predicted values row by row:
    `f_`/`g_` hold, at each processed cell, the physics output for the row
    of predicted values based at `offset(0,1,iy)`.
    (3) Corrector: for every cell of the window whose bounds are offset by
    `G - io` instead of `G` in both axes, the scratch receives the
    quarter-sum of the pre-predictor state over the 2-by-2 stencil, minus
    `0.0625` times the signed combination of the limited state derivatives,
    minus `(0.5*dt/dx)` times the x-differences of the recomputed flux-x over
    the stencil's rows, minus `(0.5*dt/dy)` times the y-differences of the
    recomputed flux-y over the stencil's columns. -/
theorem compute_step_formulas (P : Phys) (S : Solver) (io : ℤ) (dt : ℚ)
    (hio : io = 0 ∨ io = 1) :
    (∀ k ix iy, 0 ≤ k → k < P.nf → 1 ≤ ix → ix < S.nx + 5 → 1 ≤ iy → iy < S.ny + 5 →
      predictor P S dt (off S k ix iy) =
        S.u (off S k ix iy) - 1/2 * dt / S.dx * S.fx (off S k ix iy) -
          1/2 * dt / S.dy * S.gy (off S k ix iy)) ∧
    (∀ k i iy, 0 ≤ k → k < P.nf → 0 ≤ i → i < S.nx + 4 → 1 ≤ iy → iy < S.ny + 5 →
      (compute_step P S io dt).f (off S k (1 + i) iy) =
        (P.flux (fun r => predictor P S dt (off S 0 1 iy + r)) (S.nx + 4) (strideS S)).1
          (k * strideS S + i) ∧
      (compute_step P S io dt).g (off S k (1 + i) iy) =
        (P.flux (fun r => predictor P S dt (off S 0 1 iy + r)) (S.nx + 4) (strideS S)).2
          (k * strideS S + i)) ∧
    (∀ m ix iy, 0 ≤ m → m < P.nf → 3 - io ≤ ix → ix < S.nx + 3 - io →
        3 - io ≤ iy → iy < S.ny + 3 - io →
      (compute_step P S io dt).v (off S m ix iy) =
        1/4 * (S.u (off S m ix iy) + S.u (off S m (ix + 1) iy) +
            S.u (off S m ix (iy + 1)) + S.u (off S m (ix + 1) (iy + 1))) -
        1/16 * (S.ux (off S m (ix + 1) iy) - S.ux (off S m ix iy) +
            S.ux (off S m (ix + 1) (iy + 1)) - S.ux (off S m ix (iy + 1)) +
            S.uy (off S m ix (iy + 1)) - S.uy (off S m ix iy) +
            S.uy (off S m (ix + 1) (iy + 1)) - S.uy (off S m (ix + 1) iy)) -
        1/2 * dt / S.dx *
          ((compute_step P S io dt).f (off S m (ix + 1) iy) -
            (compute_step P S io dt).f (off S m ix iy) +
            (compute_step P S io dt).f (off S m (ix + 1) (iy + 1)) -
            (compute_step P S io dt).f (off S m ix (iy + 1))) -
        1/2 * dt / S.dy *
          ((compute_step P S io dt).g (off S m ix (iy + 1)) -
            (compute_step P S io dt).g (off S m ix iy) +
            (compute_step P S io dt).g (off S m (ix + 1) (iy + 1)) -
            (compute_step P S io dt).g (off S m (ix + 1) iy))) := by
  refine ⟨?_, ?_, ?_⟩
  · intro k ix iy hk hk2 hx1 hx2 hy1 hy2
    have hc : ∀ e1 ∈ cellItems 1 (S.ny + 5) 1 (S.nx + 5) P.nf,
        ∀ e2 ∈ cellItems 1 (S.ny + 5) 1 (S.nx + 5) P.nf,
        cellTgt S e1 = cellTgt S e2 → predVal S dt e1 = predVal S dt e2 := by
      intro e1 h1 e2 h2 ht
      unfold predVal
      rw [ht]
    have hmem : ((iy, ix, k) : ℤ × ℤ × ℤ) ∈ cellItems 1 (S.ny + 5) 1 (S.nx + 5) P.nf :=
      mem_cellItems.mpr ⟨hy1, hy2, hx1, hx2, hk, hk2⟩
    exact foldl_upd_mem hc S.v (iy, ix, k) hmem
  · intro k i iy hk hk2 hi hi2 hy1 hy2
    rw [compute_step_f, compute_step_g]
    exact halfFlux_at P S (predictor P S dt) k i iy hk hk2 hi hi2 hy1 hy2
  · intro m ix iy hm hm2 hx1 hx2 hy1 hy2
    rw [compute_step_v, compute_step_f, compute_step_g]
    unfold corrector
    have hc : ∀ e1 ∈ cellItems (3 - io) (S.ny + 3 - io) (3 - io) (S.nx + 3 - io) P.nf,
        ∀ e2 ∈ cellItems (3 - io) (S.ny + 3 - io) (3 - io) (S.nx + 3 - io) P.nf,
        cellTgt S e1 = cellTgt S e2 →
        corrVal S dt (halfFlux P S (predictor P S dt)).1
            (halfFlux P S (predictor P S dt)).2 e1 =
          corrVal S dt (halfFlux P S (predictor P S dt)).1
            (halfFlux P S (predictor P S dt)).2 e2 := by
      rintro ⟨y1, x1, k1⟩ h1 ⟨y2, x2, k2⟩ h2 ht
      rw [mem_cellItems] at h1 h2
      simp only at h1 h2
      unfold cellTgt at ht
      simp only at ht
      have hinj := off_inj (show (0:ℤ) ≤ x1 by omega) (show x1 < S.nx + 6 by omega)
        (show (0:ℤ) ≤ y1 by omega) (show y1 < S.ny + 6 by omega)
        (show (0:ℤ) ≤ x2 by omega) (show x2 < S.nx + 6 by omega)
        (show (0:ℤ) ≤ y2 by omega) (show y2 < S.ny + 6 by omega) ht
      obtain ⟨hka, hxa, hya⟩ := hinj
      rw [hka, hxa, hya]
    have hmem : ((iy, ix, m) : ℤ × ℤ × ℤ) ∈
        cellItems (3 - io) (S.ny + 3 - io) (3 - io) (S.nx + 3 - io) P.nf :=
      mem_cellItems.mpr ⟨hy1, hy2, hx1, hx2, hm, hm2⟩
    exact foldl_upd_mem hc (predictor P S dt) (iy, ix, m) hmem

/-- C1 witness: the corrector formula instantiated on a concrete grid at the
    window cell `(m,ix,iy) = (0,3,3)` with even parity and `dt = 1`. -/
theorem compute_step_formulas_witness :
    ((0:ℤ) = 0 ∨ (0:ℤ) = 1) ∧
    (compute_step (physN 1) solver2x1 0 1).v (off solver2x1 0 3 3) =
      1/4 * (solver2x1.u (off solver2x1 0 3 3) + solver2x1.u (off solver2x1 0 (3 + 1) 3) +
          solver2x1.u (off solver2x1 0 3 (3 + 1)) +
          solver2x1.u (off solver2x1 0 (3 + 1) (3 + 1))) -
      1/16 * (solver2x1.ux (off solver2x1 0 (3 + 1) 3) - solver2x1.ux (off solver2x1 0 3 3) +
          solver2x1.ux (off solver2x1 0 (3 + 1) (3 + 1)) -
          solver2x1.ux (off solver2x1 0 3 (3 + 1)) +
          solver2x1.uy (off solver2x1 0 3 (3 + 1)) - solver2x1.uy (off solver2x1 0 3 3) +
          solver2x1.uy (off solver2x1 0 (3 + 1) (3 + 1)) -
          solver2x1.uy (off solver2x1 0 (3 + 1) 3)) -
      1/2 * 1 / solver2x1.dx *
        ((compute_step (physN 1) solver2x1 0 1).f (off solver2x1 0 (3 + 1) 3) -
          (compute_step (physN 1) solver2x1 0 1).f (off solver2x1 0 3 3) +
          (compute_step (physN 1) solver2x1 0 1).f (off solver2x1 0 (3 + 1) (3 + 1)) -
          (compute_step (physN 1) solver2x1 0 1).f (off solver2x1 0 3 (3 + 1))) -
      1/2 * 1 / solver2x1.dy *
        ((compute_step (physN 1) solver2x1 0 1).g (off solver2x1 0 3 (3 + 1)) -
          (compute_step (physN 1) solver2x1 0 1).g (off solver2x1 0 3 3) +
          (compute_step (physN 1) solver2x1 0 1).g (off solver2x1 0 (3 + 1) (3 + 1)) -
          (compute_step (physN 1) solver2x1 0 1).g (off solver2x1 0 (3 + 1) 3)) :=
  ⟨Or.inl rfl,
    (compute_step_formulas (physN 1) solver2x1 0 1 (Or.inl rfl)).2.2 0 3 3
      (by decide) (by decide) (by decide) (by decide) (by decide) (by decide)⟩

/- ## Time stepper (compute_fg_speeds, run) -/

/-- The tiny positive floor `1.0e-15` seeded into the wave-speed accumulator
    at the start of every half-step. -/
def seedFloor : ℚ := 1 / 10 ^ 15

/-- `compute_fg_speeds`: batched flux of the whole padded grid into `f_`,`g_`
    (base pointer `&f_[0]`, `ncell = field_stride = nx_all*ny_all`), then the
    wave-speed max-reduction over the same run, seeded at the floor. -/
def compute_fg_speeds (P : Phys) (S : Solver) : Solver × (ℚ × ℚ) :=
  ({ S with
      f := overlayRun P.nf (strideS S) 0 (strideS S) (P.flux S.u (strideS S) (strideS S)).1 S.f
      g := overlayRun P.nf (strideS S) 0 (strideS S) (P.flux S.u (strideS S) (strideS S)).2 S.g },
    P.wave_speed (seedFloor, seedFloor) S.u (strideS S) (strideS S))

/-- The shared prefix of each half-step of `run`: `apply_periodic();
    compute_fg_speeds(cxy); limited_derivs();` returning the prepared solver
    and the measured wave-speed pair. -/
def prepHalf (P : Phys) (lim : ℚ → ℚ → ℚ → ℚ) (S : Solver) : Solver × (ℚ × ℚ) :=
  ((limited_derivs P lim (compute_fg_speeds P (apply_periodic P S)).1),
    (compute_fg_speeds P (apply_periodic P S)).2)

/-- The `dt` selected at the even half-step of one iteration of `run`'s while
    loop: `cfl / max(cxy[0]/dx, cxy[1]/dy)`, shrunk to `(tfinal-t)/2` when
    `t + 2*dt` would reach or pass `tfinal`. -/
def stepDt (P : Phys) (S : Solver) (t tfinal : ℚ) : ℚ :=
  if t + 2 * (S.cfl / max ((compute_fg_speeds P (apply_periodic P S)).2.1 / S.dx)
        ((compute_fg_speeds P (apply_periodic P S)).2.2 / S.dy)) ≥ tfinal then
    (tfinal - t) / 2
  else
    S.cfl / max ((compute_fg_speeds P (apply_periodic P S)).2.1 / S.dx)
      ((compute_fg_speeds P (apply_periodic P S)).2.2 / S.dy)

/-- One iteration of `run`'s while loop (the `for io in {0,1}` pair): the even
    half-step measures the wave speeds and selects `dt`, both half-steps use
    it; returns the advanced solver, the advanced time, the `done` flag, and
    the trace of `(io, dt)` pairs passed to `compute_step`. -/
def stepPair (P : Phys) (lim : ℚ → ℚ → ℚ → ℚ) (S : Solver) (t tfinal : ℚ) :
    Solver × ℚ × Bool × List (ℤ × ℚ) :=
  let pr0 := prepHalf P lim S
  let dt0 := S.cfl / max (pr0.2.1 / S.dx) (pr0.2.2 / S.dy)
  let dt := if t + 2 * dt0 ≥ tfinal then (tfinal - t) / 2 else dt0
  let S1 := compute_step P pr0.1 0 dt
  let pr1 := prepHalf P lim S1
  let S2 := compute_step P pr1.1 1 dt
  (S2, t + dt + dt, decide (t + 2 * dt0 ≥ tfinal), [(0, dt), (1, dt)])

/-- The while loop of `run`, with explicit fuel (the C++ loop has no bound;
    every claim proved below holds for every fuel value).  Each iteration
    performs one whole even/odd pair. -/
def runAux (P : Phys) (lim : ℚ → ℚ → ℚ → ℚ) (tfinal : ℚ) :
    ℕ → Solver → ℚ → Solver × ℚ × List (ℤ × ℚ)
  | 0, S, t => (S, t, [])
  | fuel + 1, S, t =>
    let r := stepPair P lim S t tfinal
    if r.2.2.1 then (r.1, r.2.1, r.2.2.2)
    else
      let rest := runAux P lim tfinal fuel r.1 r.2.1
      (rest.1, rest.2.1, r.2.2.2 ++ rest.2.2)

/-- `run(tfinal)`: advance from the solver's current state, `t` starting at 0
    (the target is relative to the current time). -/
def runSolver (P : Phys) (lim : ℚ → ℚ → ℚ → ℚ) (fuel : ℕ) (S : Solver) (tfinal : ℚ) :
    Solver × ℚ × List (ℤ × ℚ) :=
  runAux P lim tfinal fuel S 0

theorem stepPair_trace (P : Phys) (lim : ℚ → ℚ → ℚ → ℚ) (S : Solver) (t tfinal : ℚ) :
    (stepPair P lim S t tfinal).2.2.2 =
      [(0, stepDt P S t tfinal), (1, stepDt P S t tfinal)] := rfl

/-- C3: in one macro-step of `run`, both half-steps receive the same `dt`,
    equal to `cfl / max(cx/dx, cy/dy)` with `(cx, cy)` the wave speeds
    measured at the even half-step (accumulator seeded at the floor), except
    that when `t + 2*dt` would reach or pass `tfinal` the step is shrunk to
    exactly `(tfinal - t)/2` and the iteration is marked as the last; the
    advanced time is `t + 2*dt`; and in every case
    `max(cx/dx, cy/dy) * dt <= cfl`, provided the physics' `wave_speed`
    never lowers its seed accumulator (the max-reduction contract) and the
    geometry is positive. -/
theorem stepPair_dt_cfl (P : Phys) (lim : ℚ → ℚ → ℚ → ℚ) (S : Solver) (t tfinal : ℚ)
    (hdx : 0 < S.dx) (hdy : 0 < S.dy) (hcfl : 0 < S.cfl)
    (hws : ∀ c u n s, c.1 ≤ (P.wave_speed c u n s).1 ∧ c.2 ≤ (P.wave_speed c u n s).2) :
    ((stepPair P lim S t tfinal).2.2.2 =
        [(0, stepDt P S t tfinal), (1, stepDt P S t tfinal)] ∧
      stepDt P S t tfinal =
        (if t + 2 * (S.cfl / max ((compute_fg_speeds P (apply_periodic P S)).2.1 / S.dx)
              ((compute_fg_speeds P (apply_periodic P S)).2.2 / S.dy)) ≥ tfinal then
          (tfinal - t) / 2
        else
          S.cfl / max ((compute_fg_speeds P (apply_periodic P S)).2.1 / S.dx)
            ((compute_fg_speeds P (apply_periodic P S)).2.2 / S.dy)) ∧
      (stepPair P lim S t tfinal).2.2.1 =
        decide (t + 2 * (S.cfl / max ((compute_fg_speeds P (apply_periodic P S)).2.1 / S.dx)
          ((compute_fg_speeds P (apply_periodic P S)).2.2 / S.dy)) ≥ tfinal) ∧
      (stepPair P lim S t tfinal).2.1 = t + 2 * stepDt P S t tfinal ∧
      (∀ n : ℕ, (stepPair P lim S t tfinal).2.2.1 = true →
        runAux P lim tfinal (n + 1) S t =
          ((stepPair P lim S t tfinal).1, (stepPair P lim S t tfinal).2.1,
            (stepPair P lim S t tfinal).2.2.2))) ∧
    max ((compute_fg_speeds P (apply_periodic P S)).2.1 / S.dx)
        ((compute_fg_speeds P (apply_periodic P S)).2.2 / S.dy) * stepDt P S t tfinal ≤
      S.cfl := by
  have hc1 : seedFloor ≤ (compute_fg_speeds P (apply_periodic P S)).2.1 :=
    (hws (seedFloor, seedFloor) (apply_periodic P S).u (strideS (apply_periodic P S))
      (strideS (apply_periodic P S))).1
  have hsf : (0:ℚ) < seedFloor := by norm_num [seedFloor]
  have hm : 0 < max ((compute_fg_speeds P (apply_periodic P S)).2.1 / S.dx)
      ((compute_fg_speeds P (apply_periodic P S)).2.2 / S.dy) :=
    lt_of_lt_of_le (div_pos (lt_of_lt_of_le hsf hc1) hdx) (le_max_left _ _)
  have hmc : max ((compute_fg_speeds P (apply_periodic P S)).2.1 / S.dx)
        ((compute_fg_speeds P (apply_periodic P S)).2.2 / S.dy) *
      (S.cfl / max ((compute_fg_speeds P (apply_periodic P S)).2.1 / S.dx)
        ((compute_fg_speeds P (apply_periodic P S)).2.2 / S.dy)) = S.cfl := by
    rw [mul_div_assoc', mul_div_cancel_left₀]
    exact ne_of_gt hm
  refine ⟨⟨rfl, rfl, rfl, ?_, ?_⟩, ?_⟩
  · have : (stepPair P lim S t tfinal).2.1 =
        t + stepDt P S t tfinal + stepDt P S t tfinal := rfl
    rw [this]
    ring
  · intro n hdone
    show (if (stepPair P lim S t tfinal).2.2.1 then
        ((stepPair P lim S t tfinal).1, (stepPair P lim S t tfinal).2.1,
          (stepPair P lim S t tfinal).2.2.2)
      else
        ((runAux P lim tfinal n (stepPair P lim S t tfinal).1
            (stepPair P lim S t tfinal).2.1).1,
          (runAux P lim tfinal n (stepPair P lim S t tfinal).1
            (stepPair P lim S t tfinal).2.1).2.1,
          (stepPair P lim S t tfinal).2.2.2 ++
            (runAux P lim tfinal n (stepPair P lim S t tfinal).1
              (stepPair P lim S t tfinal).2.1).2.2)) =
      ((stepPair P lim S t tfinal).1, (stepPair P lim S t tfinal).2.1,
        (stepPair P lim S t tfinal).2.2.2)
    rw [if_pos hdone]
  · unfold stepDt
    by_cases hsh : t + 2 * (S.cfl / max ((compute_fg_speeds P (apply_periodic P S)).2.1 / S.dx)
        ((compute_fg_speeds P (apply_periodic P S)).2.2 / S.dy)) ≥ tfinal
    · rw [if_pos hsh]
      have hle : (tfinal - t) / 2 ≤
          S.cfl / max ((compute_fg_speeds P (apply_periodic P S)).2.1 / S.dx)
            ((compute_fg_speeds P (apply_periodic P S)).2.2 / S.dy) := by
        linarith
      calc max ((compute_fg_speeds P (apply_periodic P S)).2.1 / S.dx)
            ((compute_fg_speeds P (apply_periodic P S)).2.2 / S.dy) * ((tfinal - t) / 2) ≤
          max ((compute_fg_speeds P (apply_periodic P S)).2.1 / S.dx)
            ((compute_fg_speeds P (apply_periodic P S)).2.2 / S.dy) *
            (S.cfl / max ((compute_fg_speeds P (apply_periodic P S)).2.1 / S.dx)
              ((compute_fg_speeds P (apply_periodic P S)).2.2 / S.dy)) :=
            mul_le_mul_of_nonneg_left hle hm.le
        _ = S.cfl := hmc
    · rw [if_neg hsh, hmc]

/-- C3 witness: the CFL bound at a concrete physics, grid, and target time. -/
theorem stepPair_dt_cfl_witness :
    ((0:ℚ) < solver2x1.dx ∧ (0:ℚ) < solver2x1.dy ∧ (0:ℚ) < solver2x1.cfl) ∧
    max ((compute_fg_speeds (physN 1) (apply_periodic (physN 1) solver2x1)).2.1 / solver2x1.dx)
        ((compute_fg_speeds (physN 1) (apply_periodic (physN 1) solver2x1)).2.2 / solver2x1.dy) *
        stepDt (physN 1) solver2x1 0 1 ≤ solver2x1.cfl :=
  ⟨⟨by norm_num [solver2x1], by norm_num [solver2x1], by norm_num [solver2x1]⟩,
    (stepPair_dt_cfl (physN 1) limZero solver2x1 0 1 (by norm_num [solver2x1])
      (by norm_num [solver2x1]) (by norm_num [solver2x1])
      (fun c u n s => ⟨le_refl c.1, le_refl c.2⟩)).2⟩

/-- The even/odd pair trace of a list of per-pair step sizes. -/
def pairTrace (ds : List ℚ) : List (ℤ × ℚ) :=
  ds.foldr (fun d acc => (0, d) :: (1, d) :: acc) []

theorem pairTrace_cons (d : ℚ) (ds : List ℚ) :
    pairTrace (d :: ds) = (0, d) :: (1, d) :: pairTrace ds := rfl

theorem pairTrace_len (ds : List ℚ) : (pairTrace ds).length = 2 * ds.length := by
  induction ds with
  | nil => rfl
  | cons d ds ih =>
    rw [pairTrace_cons]
    simp only [List.length_cons, ih]
    ring

theorem runAux_trace (P : Phys) (lim : ℚ → ℚ → ℚ → ℚ) (tfinal : ℚ) :
    ∀ (fuel : ℕ) (S : Solver) (t : ℚ),
      ∃ ds : List ℚ, (runAux P lim tfinal fuel S t).2.2 = pairTrace ds := by
  intro fuel
  induction fuel with
  | zero => intro S t; exact ⟨[], rfl⟩
  | succ n ih =>
    intro S t
    show ∃ ds, (if (stepPair P lim S t tfinal).2.2.1 then
        ((stepPair P lim S t tfinal).1, (stepPair P lim S t tfinal).2.1,
          (stepPair P lim S t tfinal).2.2.2)
      else
        ((runAux P lim tfinal n (stepPair P lim S t tfinal).1
            (stepPair P lim S t tfinal).2.1).1,
          (runAux P lim tfinal n (stepPair P lim S t tfinal).1
            (stepPair P lim S t tfinal).2.1).2.1,
          (stepPair P lim S t tfinal).2.2.2 ++
            (runAux P lim tfinal n (stepPair P lim S t tfinal).1
              (stepPair P lim S t tfinal).2.1).2.2)).2.2 = pairTrace ds
    by_cases hd : (stepPair P lim S t tfinal).2.2.1 = true
    · rw [if_pos hd]
      exact ⟨[stepDt P S t tfinal], (stepPair_trace P lim S t tfinal).trans rfl⟩
    · rw [if_neg (by simpa using hd)]
      obtain ⟨ds, hds⟩ := ih (stepPair P lim S t tfinal).1 (stepPair P lim S t tfinal).2.1
      refine ⟨stepDt P S t tfinal :: ds, ?_⟩
      simp only [stepPair_trace, hds, pairTrace_cons, List.cons_append, List.nil_append]

/-- C4: every call to `run` performs its half-steps in even-then-odd pairs
    sharing one `dt` (the trace is a `pairTrace`), so the total half-step
    count is even — for every fuel, state, and duration, and additively
    across a repeated call starting from the returned state, so the
    parity-dependent copy-back shifts cancel pairwise and the state the
    public accessor exposes at return is on the primary grid. -/
theorem run_even_half_steps (P : Phys) (lim : ℚ → ℚ → ℚ → ℚ) (fuel : ℕ) (S : Solver)
    (tfinal : ℚ) (fuel2 : ℕ) (tf2 : ℚ) :
    (∃ ds : List ℚ, (runSolver P lim fuel S tfinal).2.2 = pairTrace ds) ∧
    Even (runSolver P lim fuel S tfinal).2.2.length ∧
    Even ((runSolver P lim fuel S tfinal).2.2.length +
      (runSolver P lim fuel2 (runSolver P lim fuel S tfinal).1 tf2).2.2.length) := by
  obtain ⟨ds, hds⟩ := runAux_trace P lim tfinal fuel S 0
  obtain ⟨ds2, hds2⟩ := runAux_trace P lim tf2 fuel2 (runSolver P lim fuel S tfinal).1 0
  have h1 : Even (runSolver P lim fuel S tfinal).2.2.length := by
    unfold runSolver
    rw [hds, pairTrace_len]
    exact even_two_mul ds.length
  have h2 : Even (runSolver P lim fuel2 (runSolver P lim fuel S tfinal).1 tf2).2.2.length := by
    unfold runSolver at hds2 ⊢
    rw [hds2, pairTrace_len]
    exact even_two_mul ds2.length
  exact ⟨⟨ds, hds⟩, h1, h1.add h2⟩

/- ## Diagnostics (solution_check)

   Scans `i, j` over `[nghost, n+nghost)` (interior cells only) in row order,
   accumulating `h_sum`, `hu_sum`, `hv_sum` and tracking `hmin`, `hmax`
   seeded from `u(0,nghost,nghost)`; `assert(h > 0)` on every cell aborts the
   scan at the first non-positive height (modelled as `none`); on success the
   three sums are scaled by the cell area `dx*dy` and reported together with
   the height range. -/

def solCells (nx ny : ℤ) : List (ℤ × ℤ) :=
  lflat (fun j => (irange 3 (nx + 3)).map fun i => (i, j)) (irange 3 (ny + 3))

def scBody (S : Solver) (acc : Option (ℚ × ℚ × ℚ × ℚ × ℚ)) (c : ℤ × ℤ) :
    Option (ℚ × ℚ × ℚ × ℚ × ℚ) :=
  match acc with
  | none => none
  | some r =>
    if 0 < S.u (off S 0 c.1 c.2) then
      some (r.1 + S.u (off S 0 c.1 c.2), r.2.1 + S.u (off S 1 c.1 c.2),
        r.2.2.1 + S.u (off S 2 c.1 c.2),
        min r.2.2.2.1 (S.u (off S 0 c.1 c.2)), max r.2.2.2.2 (S.u (off S 0 c.1 c.2)))
    else none

def solution_check (S : Solver) : Option (ℚ × ℚ × ℚ × ℚ × ℚ) :=
  ((solCells S.nx S.ny).foldl (scBody S)
      (some (0, 0, 0, S.u (off S 0 3 3), S.u (off S 0 3 3)))).map
    fun r => (r.1 * (S.dx * S.dy), r.2.1 * (S.dx * S.dy), r.2.2.1 * (S.dx * S.dy),
      r.2.2.2.1, r.2.2.2.2)

theorem mem_solCells {nx ny : ℤ} {c : ℤ × ℤ} :
    c ∈ solCells nx ny ↔ 3 ≤ c.1 ∧ c.1 < nx + 3 ∧ 3 ≤ c.2 ∧ c.2 < ny + 3 := by
  unfold solCells
  rw [mem_lflat]
  constructor
  · rintro ⟨j, hj, hc⟩
    rcases List.mem_map.mp hc with ⟨i, hi, rfl⟩
    rw [mem_irange] at hj hi
    exact ⟨hi.1, hi.2, hj.1, hj.2⟩
  · intro h
    exact ⟨c.2, mem_irange.mpr ⟨h.2.2.1, h.2.2.2⟩,
      List.mem_map.mpr ⟨c.1, mem_irange.mpr ⟨h.1, h.2.1⟩, rfl⟩⟩

theorem scFold_noneAbsorb (S : Solver) :
    ∀ l : List (ℤ × ℤ), l.foldl (scBody S) none = none := by
  intro l
  induction l with
  | nil => rfl
  | cons c cs ih =>
    simp only [List.foldl_cons]
    exact ih

theorem scFold_none (S : Solver) :
    ∀ (l : List (ℤ × ℤ)) (r0 : ℚ × ℚ × ℚ × ℚ × ℚ),
      (l.foldl (scBody S) (some r0) = none ↔ ∃ c ∈ l, S.u (off S 0 c.1 c.2) ≤ 0) := by
  intro l
  induction l with
  | nil =>
    intro r0
    simp
  | cons c cs ih =>
    intro r0
    simp only [List.foldl_cons]
    by_cases hc : 0 < S.u (off S 0 c.1 c.2)
    · have hstep : scBody S (some r0) c =
          some (r0.1 + S.u (off S 0 c.1 c.2), r0.2.1 + S.u (off S 1 c.1 c.2),
            r0.2.2.1 + S.u (off S 2 c.1 c.2),
            min r0.2.2.2.1 (S.u (off S 0 c.1 c.2)),
            max r0.2.2.2.2 (S.u (off S 0 c.1 c.2))) := by
        simp [scBody, hc]
      rw [hstep, ih]
      constructor
      · rintro ⟨c2, hc2, hle⟩
        exact ⟨c2, List.mem_cons_of_mem _ hc2, hle⟩
      · rintro ⟨c2, hc2, hle⟩
        rcases List.mem_cons.mp hc2 with rfl | hc2
        · exact absurd hc (not_lt.mpr hle)
        · exact ⟨c2, hc2, hle⟩
    · have hstep : scBody S (some r0) c = none := by
        simp [scBody, hc]
      rw [hstep, scFold_noneAbsorb]
      simp only [true_iff]
      exact ⟨c, List.mem_cons_self _ _, not_lt.mp hc⟩

theorem scFold_pos (S : Solver) :
    ∀ (l : List (ℤ × ℤ)) (r0 : ℚ × ℚ × ℚ × ℚ × ℚ),
      (∀ c ∈ l, 0 < S.u (off S 0 c.1 c.2)) →
      l.foldl (scBody S) (some r0) =
        some (l.foldl (fun a c => a + S.u (off S 0 c.1 c.2)) r0.1,
          l.foldl (fun a c => a + S.u (off S 1 c.1 c.2)) r0.2.1,
          l.foldl (fun a c => a + S.u (off S 2 c.1 c.2)) r0.2.2.1,
          (l.map (fun c => S.u (off S 0 c.1 c.2))).foldl min r0.2.2.2.1,
          (l.map (fun c => S.u (off S 0 c.1 c.2))).foldl max r0.2.2.2.2) := by
  intro l
  induction l with
  | nil => intro r0 h; rfl
  | cons c cs ih =>
    intro r0 h
    simp only [List.foldl_cons, List.map_cons]
    have hstep : scBody S (some r0) c =
        some (r0.1 + S.u (off S 0 c.1 c.2), r0.2.1 + S.u (off S 1 c.1 c.2),
          r0.2.2.1 + S.u (off S 2 c.1 c.2),
          min r0.2.2.2.1 (S.u (off S 0 c.1 c.2)),
          max r0.2.2.2.2 (S.u (off S 0 c.1 c.2))) := by
      simp [scBody, h c (List.mem_cons_self _ _)]
    rw [hstep]
    exact ih _ (fun c2 hc2 => h c2 (List.mem_cons_of_mem _ hc2))

theorem foldl_add_eq_sum (f : α → ℚ) :
    ∀ (l : List α) (a : ℚ), l.foldl (fun a c => a + f c) a = a + (l.map f).sum := by
  intro l
  induction l with
  | nil => intro a; simp
  | cons c cs ih =>
    intro a
    simp only [List.foldl_cons, List.map_cons, List.sum_cons, ih]
    ring

theorem foldl_min_spec :
    ∀ (l : List ℚ) (a : ℚ),
      (l.foldl min a = a ∨ l.foldl min a ∈ l) ∧ l.foldl min a ≤ a ∧
        ∀ x ∈ l, l.foldl min a ≤ x := by
  intro l
  induction l with
  | nil => intro a; exact ⟨Or.inl rfl, le_refl a, by simp⟩
  | cons c cs ih =>
    intro a
    simp only [List.foldl_cons]
    obtain ⟨hmem, hle, hall⟩ := ih (min a c)
    refine ⟨?_, le_trans hle (min_le_left a c), ?_⟩
    · rcases hmem with h | h
      · rcases le_total a c with hac | hac
        · exact Or.inl (h.trans (min_eq_left hac))
        · refine Or.inr ?_
          rw [h, min_eq_right hac]
          exact List.mem_cons_self _ _
      · exact Or.inr (List.mem_cons_of_mem _ h)
    · intro x hx
      rcases List.mem_cons.mp hx with rfl | hx
      · exact le_trans hle (min_le_right a x)
      · exact hall x hx

theorem foldl_max_spec :
    ∀ (l : List ℚ) (a : ℚ),
      (l.foldl max a = a ∨ l.foldl max a ∈ l) ∧ a ≤ l.foldl max a ∧
        ∀ x ∈ l, x ≤ l.foldl max a := by
  intro l
  induction l with
  | nil => intro a; exact ⟨Or.inl rfl, le_refl a, by simp⟩
  | cons c cs ih =>
    intro a
    simp only [List.foldl_cons]
    obtain ⟨hmem, hle, hall⟩ := ih (max a c)
    refine ⟨?_, le_trans (le_max_left a c) hle, ?_⟩
    · rcases hmem with h | h
      · rcases le_total a c with hac | hac
        · refine Or.inr ?_
          rw [h, max_eq_right hac]
          exact List.mem_cons_self _ _
        · exact Or.inl (h.trans (max_eq_left hac))
      · exact Or.inr (List.mem_cons_of_mem _ h)
    · intro x hx
      rcases List.mem_cons.mp hx with rfl | hx
      · exact le_trans (le_max_right a x) hle
      · exact hall x hx

/-- C8: `solution_check` scans exactly the interior cells; it aborts fatally
    if and only if some interior height is non-positive; and on an
    all-positive grid it reports the three conserved totals, each the
    interior sum of its field scaled by the cell area `dx*dy`, together with
    the minimum and maximum interior height. -/
theorem solution_check_spec (S : Solver) (hnx : 1 ≤ S.nx) (hny : 1 ≤ S.ny) :
    (∀ c : ℤ × ℤ, c ∈ solCells S.nx S.ny ↔
      3 ≤ c.1 ∧ c.1 < S.nx + 3 ∧ 3 ≤ c.2 ∧ c.2 < S.ny + 3) ∧
    (solution_check S = none ↔ ∃ c ∈ solCells S.nx S.ny, S.u (off S 0 c.1 c.2) ≤ 0) ∧
    (∀ r : ℚ × ℚ × ℚ × ℚ × ℚ, solution_check S = some r →
      r.1 = ((solCells S.nx S.ny).map fun c => S.u (off S 0 c.1 c.2)).sum * (S.dx * S.dy) ∧
      r.2.1 = ((solCells S.nx S.ny).map fun c => S.u (off S 1 c.1 c.2)).sum * (S.dx * S.dy) ∧
      r.2.2.1 = ((solCells S.nx S.ny).map fun c => S.u (off S 2 c.1 c.2)).sum * (S.dx * S.dy) ∧
      ((r.2.2.2.1 ∈ (solCells S.nx S.ny).map fun c => S.u (off S 0 c.1 c.2)) ∧
        ∀ x ∈ (solCells S.nx S.ny).map fun c => S.u (off S 0 c.1 c.2), r.2.2.2.1 ≤ x) ∧
      ((r.2.2.2.2 ∈ (solCells S.nx S.ny).map fun c => S.u (off S 0 c.1 c.2)) ∧
        ∀ x ∈ (solCells S.nx S.ny).map fun c => S.u (off S 0 c.1 c.2), x ≤ r.2.2.2.2)) := by
  have hu33 : S.u (off S 0 3 3) ∈ (solCells S.nx S.ny).map fun c => S.u (off S 0 c.1 c.2) :=
    List.mem_map.mpr ⟨(3, 3), mem_solCells.mpr ⟨by omega, by omega, by omega, by omega⟩, rfl⟩
  refine ⟨fun c => mem_solCells, ?_, ?_⟩
  · unfold solution_check
    rw [Option.map_eq_none']
    exact scFold_none S _ _
  · intro r hr
    unfold solution_check at hr
    by_cases hex : ∃ c ∈ solCells S.nx S.ny, S.u (off S 0 c.1 c.2) ≤ 0
    · rw [(scFold_none S _ _).mpr hex] at hr
      cases hr
    · push_neg at hex
      rw [scFold_pos S _ _ hex] at hr
      rw [Option.map_some', Option.some.injEq] at hr
      subst hr
      have hmin := foldl_min_spec ((solCells S.nx S.ny).map fun c => S.u (off S 0 c.1 c.2))
        (S.u (off S 0 3 3))
      have hmax := foldl_max_spec ((solCells S.nx S.ny).map fun c => S.u (off S 0 c.1 c.2))
        (S.u (off S 0 3 3))
      refine ⟨?_, ?_, ?_, ⟨?_, hmin.2.2⟩, ⟨?_, hmax.2.2⟩⟩
      · show (solCells S.nx S.ny).foldl (fun a c => a + S.u (off S 0 c.1 c.2)) 0 * (S.dx * S.dy) = _
        rw [foldl_add_eq_sum]
        ring
      · show (solCells S.nx S.ny).foldl (fun a c => a + S.u (off S 1 c.1 c.2)) 0 * (S.dx * S.dy) = _
        rw [foldl_add_eq_sum]
        ring
      · show (solCells S.nx S.ny).foldl (fun a c => a + S.u (off S 2 c.1 c.2)) 0 * (S.dx * S.dy) = _
        rw [foldl_add_eq_sum]
        ring
      · show ((solCells S.nx S.ny).map fun c => S.u (off S 0 c.1 c.2)).foldl min
          (S.u (off S 0 3 3)) ∈ _
        rcases hmin.1 with h | h
        · rw [h]
          exact hu33
        · exact h
      · show ((solCells S.nx S.ny).map fun c => S.u (off S 0 c.1 c.2)).foldl max
          (S.u (off S 0 3 3)) ∈ _
        rcases hmax.1 with h | h
        · rw [h]
          exact hu33
        · exact h

/-- C8 witness: the interior-scan characterization at a concrete cell of a
    concrete grid. -/
theorem solution_check_spec_witness :
    ((1:ℤ) ≤ solver2x1.nx ∧ (1:ℤ) ≤ solver2x1.ny) ∧
    (((3:ℤ), (3:ℤ)) ∈ solCells solver2x1.nx solver2x1.ny ↔
      3 ≤ (3:ℤ) ∧ (3:ℤ) < solver2x1.nx + 3 ∧ 3 ≤ (3:ℤ) ∧ (3:ℤ) < solver2x1.ny + 3) :=
  ⟨⟨by decide, by decide⟩,
    (solution_check_spec solver2x1 (by decide) (by decide)).1 (3, 3)⟩
